import Mathlib

/-!
Verification of the overlap/artifact resolution pipeline of `pyrerp/rerp.py`.

The development shallowly embeds the data model and the pure algorithmic core
of the source file:

* `_epoch_subspans`   (sweep-line canonical-subspan generator),
* `_propagate_all_or_nothing` (overlap-graph flood fill),
* `_Accountant.count` (per-subspan bookkeeping),
* `_choose_strategy`  (regression strategy selection),
* the discretization prologue of `_epoch_info_and_spans`,
* `rERPRequest.__init__` and `_artifact_spans`.

Modelling conventions:

* Positions are lexicographically ordered pairs `(recspan_id, tick)`, exactly
  as the source compares its `(recspan_id, tick)` tuples.
* Python epochs have identity semantics (`_Epoch.__eq__` is identity); each
  embedded `Epoch` carries an `id : Nat` playing the role of the object
  identity.  The mutable per-object field `intrinsic_artifacts` lives in an
  explicit heap (`Store`, an association list from epoch id to its list of
  artifact labels), because `_propagate_all_or_nothing` mutates it in place.
* Python `dict`s used as multiset counters are association lists
  `List (key × Int)` in insertion order; a lookup of an absent key raises
  `KeyError`, which the embedding models with `Except String`.
* Python's `list.sort`/`sorted` are modelled with `List.insertionSort`.  The
  source sorts full Python-2 tuples, whose comparison of `_Epoch` objects and
  `None` at equal positions is unspecified (py2 falls back to comparing by
  type name and object address); all boundary events sharing a position are
  applied before anything is emitted, so only the by-position order is
  semantically relevant and the embedding sorts by position.
* Failure (`raise`, a failing `assert`, an unbound name) is `Except.error`.
-/

deriving instance DecidableEq for Except

namespace Pyrerp

/-- Sweep positions: `(recspan_id, tick)` pairs compared lexicographically,
mirroring the source's sortable tuple keys. -/
abbrev Pos := Int ×ₗ Int

/-- Build a position from a recspan id and a tick. -/
def pos (recspan_id tick : Int) : Pos := toLex (recspan_id, tick)

/-- The recspan id component of a position (`position[0]` in the source). -/
def recOf (p : Pos) : Int := (ofLex p).1

/-- The tick component of a position (`position[1]` in the source). -/
def tickOf (p : Pos) : Int := (ofLex p).2

/-- Embeds `_Epoch` (rerp.py:112-127).  `id` models Python object identity
(`_Epoch` deliberately uses identity `__eq__`/`__hash__`).  `rerp_idx` inlines
`epoch.rerp.this_rerp_idx` and `all_or_nothing` inlines
`epoch.rerp.request.all_or_nothing`; the regressor row `design_row` is owned
by the external patsy collaborator and is not used by any verified function,
so it is omitted.  The mutable `intrinsic_artifacts` field is kept in a
separate `Store` heap, keyed by `id`. -/
structure Epoch where
  id : Nat
  recspan_id : Int
  start_tick : Int
  ticks : Int
  rerp_idx : Nat
  all_or_nothing : Bool
  deriving DecidableEq

/-- Embeds the namedtuple `_DataSpan(start, stop, epoch, artifact)`
(rerp.py:129). -/
structure DataSpan where
  start : Pos
  stop : Pos
  epoch : Option Epoch
  artifact : Option String
  deriving DecidableEq

/-- Embeds the namedtuple `_DataSubSpan(start, stop, epochs, artifacts)`
(rerp.py:130-131).  The source stores `epochs` as a Python `set`; the
embedding keeps the underlying key list of the sweep's counter dict (whose
keys are distinct), and set-level statements use `List.toFinset`.
`artifacts` is a genuine set in both. -/
structure DataSubSpan where
  start : Pos
  stop : Pos
  epochs : List Epoch
  artifacts : Finset String
  deriving DecidableEq

/-- The heap of mutable `intrinsic_artifacts` lists, keyed by epoch id. -/
abbrev Store := List (Nat × List String)

/-- Read an epoch's `intrinsic_artifacts` list (a fresh epoch that was never
written has the empty list, matching `_Epoch.__init__`). -/
def sget : Store → Nat → List String
  | [], _ => []
  | (j, w) :: rest, i => if j = i then w else sget rest i

/-- Write an epoch's `intrinsic_artifacts` list. -/
def sset : Store → Nat → List String → Store
  | [], i, v => [(i, v)]
  | (j, w) :: rest, i, v => if j = i then (j, v) :: rest else (j, w) :: sset rest i v

/-- One boundary event of the sweep: the tuple
`(position, epoch, artifact, change)` appended by `_epoch_subspans`
(rerp.py:631-634). -/
structure StateChange where
  position : Pos
  epoch : Option Epoch
  artifact : Option String
  change : Int
  deriving DecidableEq

/-- The `(start, +1)` event of a span. -/
def startEv (s : DataSpan) : StateChange := ⟨s.start, s.epoch, s.artifact, 1⟩

/-- The `(stop, -1)` event of a span. -/
def stopEv (s : DataSpan) : StateChange := ⟨s.stop, s.epoch, s.artifact, -1⟩

/-- The full event list built by the first loop of `_epoch_subspans`
(rerp.py:630-634). -/
def stateChanges (spans : List DataSpan) : List StateChange :=
  spans.flatMap fun s => [startEv s, stopEv s]

/-- By-position comparison used to sort boundary events (`state_changes.sort()`
sorts tuples, hence lexicographically by `position` first; the tie-break among
events at one position is semantically irrelevant, see the header comment). -/
def scLe (a b : StateChange) : Prop := a.position ≤ b.position

instance : DecidableRel scLe := fun a b => inferInstanceAs (Decidable (a.position ≤ b.position))

instance : IsTotal StateChange scLe := ⟨fun a b => le_total a.position b.position⟩

instance : IsTrans StateChange scLe := ⟨fun _ _ _ h h' => le_trans h h'⟩

/-- By-start-tick comparison: `sorted(current_epochs, key=lambda e: e.start_tick)`
(rerp.py:652-653). -/
def eLe (a b : Epoch) : Prop := a.start_tick ≤ b.start_tick

instance : DecidableRel eLe := fun a b => inferInstanceAs (Decidable (a.start_tick ≤ b.start_tick))

instance : IsTotal Epoch eLe := ⟨fun a b => le_total a.start_tick b.start_tick⟩

instance : IsTrans Epoch eLe := ⟨fun _ _ _ h h' => le_trans h h'⟩

/-- Association-list lookup for the sweep's counter dicts. -/
def alookup [DecidableEq α] : List (α × Int) → α → Option Int
  | [], _ => none
  | (a, v) :: rest, k => if a = k then some v else alookup rest k

/-- Overwrite the value stored at a key (no-op on an absent key; `bump` only
calls it on present keys). -/
def aset [DecidableEq α] : List (α × Int) → α → Int → List (α × Int)
  | [], _, _ => []
  | (a, v) :: rest, k, nv => if a = k then (a, nv) :: rest else (a, v) :: aset rest k nv

/-- Delete the (first, and with distinct keys only) entry of a key. -/
def aerase [DecidableEq α] : List (α × Int) → α → List (α × Int)
  | [], _ => []
  | (a, v) :: rest, k => if a = k then rest else (a, v) :: aerase rest k

/-- One counter update of the sweep (rerp.py:659-666):

    if change == +1 and state not in state_dict:
        state_dict[state] = 0
    state_dict[state] += change
    if change == -1 and state_dict[state] == 0:
        del state_dict[state]

A `+=` on an absent key raises `KeyError`. -/
def bump [DecidableEq α] (d : List (α × Int)) (k : α) (c : Int) :
    Except String (List (α × Int)) :=
  let d1 := if c = 1 ∧ alookup d k = none then d ++ [(k, 0)] else d
  match alookup d1 k with
  | none => .error "KeyError"
  | some v =>
      let d2 := aset d1 k (v + c)
      if c = -1 ∧ v + c = 0 then .ok (aerase d2 k) else .ok d2

/-- Union of the `intrinsic_artifacts` of a list of epochs, as read from the
heap (the repeated `effective_artifacts.update(epoch.intrinsic_artifacts)`
of rerp.py:644-646/654-655). -/
def intrinsicsOf (ia : Store) (es : List Epoch) : Finset String :=
  es.foldr (fun e s => (sget ia e.id).toFinset ∪ s) ∅

/-- The subspans emitted for one gap `[l, p)` of the sweep (rerp.py:643-658):
with overlap correction one subspan carrying the whole live-epoch set, without
it one subspan per live epoch (sorted by the epoch's `start_tick`), each
seeing only its own intrinsic artifacts. -/
def emitSub (ia : Store) (overlap_correction : Bool) (l p : Pos)
    (ce : List (Epoch × Int)) (ca : List (String × Int)) : List DataSubSpan :=
  if overlap_correction then
    [⟨l, p, ce.map Prod.fst,
      (ca.map Prod.fst).toFinset ∪ intrinsicsOf ia (ce.map Prod.fst)⟩]
  else
    (List.insertionSort eLe (ce.map Prod.fst)).map fun e =>
      ⟨l, p, [e], (ca.map Prod.fst).toFinset ∪ (sget ia e.id).toFinset⟩

/-- Apply one boundary event's change to one counter dict: a `None` tag
leaves the dict alone (`if state is not None`, rerp.py:661). -/
def stepDict [DecidableEq κ] (sel : Option κ) (d : List (κ × Int)) (c : Int) :
    Except String (List (κ × Int)) :=
  match sel with
  | none => .ok d
  | some e => bump d e c

/-- The block of subspans emitted before applying one boundary event
(rerp.py:640-658): nothing before the first event, nothing when the position
has not advanced, nothing when no epoch is live. -/
def emitAt (ia : Store) (overlap_correction : Bool) (lastPos : Option Pos)
    (p : Pos) (ce : List (Epoch × Int)) (ca : List (String × Int)) :
    List DataSubSpan :=
  match lastPos with
  | none => []
  | some l =>
      if p ≠ l ∧ ce ≠ [] then emitSub ia overlap_correction l p ce ca else []

/-- The sweep loop of `_epoch_subspans` (rerp.py:636-668): one recursive call
per boundary event, threading `last_position`, the two counter dicts and the
emitted output; the final pattern is the closing
`assert current_epochs == current_artifacts == {}`. -/
def sweepAux (ia : Store) (overlap_correction : Bool) :
    List StateChange → Option Pos → List (Epoch × Int) → List (String × Int) →
    Except String (List DataSubSpan)
  | [], _, ce, ca =>
      if ce = [] ∧ ca = [] then .ok [] else .error "AssertionError"
  | sc :: rest, lastPos, ce, ca =>
      match stepDict sc.epoch ce sc.change with
      | .error msg => .error msg
      | .ok ce' =>
        match stepDict sc.artifact ca sc.change with
        | .error msg => .error msg
        | .ok ca' =>
          match sweepAux ia overlap_correction rest (some sc.position) ce' ca' with
          | .error msg => .error msg
          | .ok out =>
              .ok (emitAt ia overlap_correction lastPos sc.position ce ca ++ out)

/-- Embeds `_epoch_subspans(spans, overlap_correction)` (rerp.py:629-668). -/
def epoch_subspans (ia : Store) (spans : List DataSpan)
    (overlap_correction : Bool) : Except String (List DataSubSpan) :=
  sweepAux ia overlap_correction
    (List.insertionSort scLe (stateChanges spans)) none [] []

/-! ### `_propagate_all_or_nothing` (rerp.py:733-759) -/

/-- The `relevant_epochs` of one subspan: its live epochs whose request asked
for all-or-nothing rejection (rerp.py:743-744). -/
def relevantEpochs (sub : DataSubSpan) : List Epoch :=
  sub.epochs.filter fun e => e.all_or_nothing

/-- Record, for every ordered pair of distinct relevant epochs of one
subspan, an overlap-graph edge (rerp.py:745-748).  The source's
`epoch_a is not epoch_b` identity test is the `id` test here. -/
def addPairs (g : Nat → Finset Nat) (rel : List Epoch) : Nat → Finset Nat :=
  rel.foldl (fun g a => rel.foldl (fun g b =>
    if a.id = b.id then g else Function.update g a.id (insert b.id (g a.id))) g) g

/-- The overlap graph over all subspans (rerp.py:740-748).  The source fills
`overlap_graph` and `epochs_needing_artifact` in one loop over the subspan
stream; the embedding folds over the same stream twice, once per structure. -/
def buildGraph (subs : List DataSubSpan) : Nat → Finset Nat :=
  subs.foldl (fun g sub => addPairs g (relevantEpochs sub)) (fun _ => ∅)

/-- Add to the pending set every relevant epoch of one artifact-carrying
subspan that does not yet carry an intrinsic artifact (rerp.py:749-752).
Python's `set.add` is the dedup-append here. -/
def addPending (ia : Store) (pend : List Nat) (rel : List Epoch) : List Nat :=
  rel.foldl
    (fun pend e => if sget ia e.id = [] ∧ e.id ∉ pend then pend ++ [e.id] else pend)
    pend

/-- The initial `epochs_needing_artifact` set (rerp.py:749-752). -/
def buildPending (ia : Store) (subs : List DataSubSpan) : List Nat :=
  subs.foldl
    (fun pend sub =>
      if sub.artifacts ≠ ∅ then addPending ia pend (relevantEpochs sub) else pend)
    []

/-- The flood-fill `while epochs_needing_artifact:` loop (rerp.py:753-759).
Python pops an arbitrary set element; the embedding pops the head of the
dedup-append list.  The `assert not epoch.intrinsic_artifacts` is the
`AssertionError` branch.  Python's loop carries no fuel; the embedding takes
explicit fuel, and the termination theorem shows that (number of epochs) much
fuel is never exhausted. -/
def floodLoop (g : Nat → Finset Nat) : Nat → List Nat → Store → Except String Store
  | _, [], ia => .ok ia
  | 0, _ :: _, _ => .error "NonTermination"
  | fuel + 1, e :: rest, ia =>
      if sget ia e ≠ [] then .error "AssertionError"
      else
        let ia' := sset ia e (sget ia e ++ ["_ALL_OR_NOTHING"])
        let adds := ((g e).sort (· ≤ ·)).filter fun n =>
          decide (sget ia' n = [] ∧ n ∉ rest)
        floodLoop g fuel (rest ++ adds) ia'

/-- The distinct epoch ids occurring in a span list ("number of epochs"). -/
def epochIds (spans : List DataSpan) : Finset Nat :=
  spans.foldr
    (fun s acc => match s.epoch with | some e => insert e.id acc | none => acc) ∅

/-- Embeds `_propagate_all_or_nothing(spans, overlap_correction)`
(rerp.py:733-759), returning the updated heap of `intrinsic_artifacts`. -/
def propagate_all_or_nothing (ia : Store) (spans : List DataSpan)
    (overlap_correction : Bool) : Except String Store :=
  match epoch_subspans ia spans overlap_correction with
  | .error msg => .error msg
  | .ok subs =>
      floodLoop (buildGraph subs) (epochIds spans).card (buildPending ia subs) ia

/-! ### `_Accountant` (rerp.py:833-922) -/

/-- One `bucket.artifacts[artifact]` record (rerp.py:893-895). -/
structure ArtifactRecord where
  affected_ticks : Int
  unique_ticks : Int
  deriving DecidableEq

/-- Embeds `ArtifactInfo` (rerp.py:833-845). -/
structure ArtifactInfo where
  epochs_requested : Int
  epochs_fully_accepted : Int
  epochs_partially_accepted : Int
  epochs_fully_rejected : Int
  ticks_requested : Int
  ticks_accepted : Int
  event_ticks_requested : Int
  event_ticks_accepted : Int
  no_overlap_ticks_requested : Int
  no_overlap_ticks_accepted : Int
  artifacts : List (String × ArtifactRecord)
  deriving DecidableEq

/-- `ArtifactInfo.__init__`: everything zeroed (rerp.py:834-845). -/
def ArtifactInfo.init : ArtifactInfo := ⟨0, 0, 0, 0, 0, 0, 0, 0, 0, 0, []⟩

/-- Embeds the `_Accountant` state (rerp.py:847-854); `num_rerps` buckets were
built from the rerp list by `__init__`. -/
structure Accountant where
  global_bucket : ArtifactInfo
  rerp_buckets : List ArtifactInfo
  epochs_with_artifacts : List Epoch
  epochs_with_data : List Epoch
  deriving DecidableEq

/-- `_Accountant.__init__(rerps)` with `num_rerps` requests (rerp.py:848-854). -/
def Accountant.init (num_rerps : Nat) : Accountant :=
  ⟨ArtifactInfo.init, List.replicate num_rerps ArtifactInfo.init, [], []⟩

/-- Embeds `_Accountant.count(subspan)` (rerp.py:856-904) as far as it can
run.  The source reads two names that are bound nowhere: after building
`bucket_events = {self._global_bucket: len(subspan.epochs)}` its per-epoch
loop writes `bucket_epochs.setdefault(bucket, 0)` (rerp.py:871), and its
artifact branch iterates `for bucket in buckets:` (rerp.py:892); both raise
`NameError` at run time.  The first is reached on every subspan with a
non-empty epoch set, before any counter is updated, so `count` can never
update any bucket. -/
def Accountant_count (acc : Accountant) (subspan : DataSubSpan) :
    Except String Accountant :=
  if subspan.epochs = [] then .ok acc
  else
    let ticks : Int := tickOf subspan.stop - tickOf subspan.start
    let event_ticks : Int := ticks * (subspan.epochs.length : Int)
    let no_overlap_ticks : Int := if subspan.epochs.length = 1 then ticks else 0
    .error "NameError: name bucket_epochs is not defined"

/-! ### `_choose_strategy` (rerp.py:926-965) -/

/-- The slice of the built-up `rERP` object that `_choose_strategy` reads:
`rerps[0].global_artifact_info`, set by `_Accountant.close` via
`_set_accounting` (rerp.py:917-922, 1142-1145). -/
structure rERPAcct where
  global_artifact_info : ArtifactInfo
  deriving DecidableEq

/-- Embeds `_choose_strategy(requested_strategy, rerps)` (rerp.py:926-965).
`assert rerps` is the empty-list `AssertionError`; overlap is detected as
`event_ticks_accepted > ticks_accepted` and partial epochs as
`epochs_partially_accepted > 0`, read off the global bucket. -/
def choose_strategy (requested_strategy : String) (rerps : List rERPAcct) :
    Except String String :=
  match rerps with
  | [] => .error "AssertionError"
  | r :: _ =>
      let gai := r.global_artifact_info
      let have_overlap := decide (gai.event_ticks_accepted > gai.ticks_accepted)
      let have_partial_epochs := decide (gai.epochs_partially_accepted > 0)
      let by_epoch_possible := !(have_overlap || have_partial_epochs)
      if requested_strategy = "continuous" then .ok requested_strategy
      else if requested_strategy = "auto" then
        if by_epoch_possible then .ok "by-epoch" else .ok "continuous"
      else if requested_strategy = "by-epoch" then
        if !by_epoch_possible then
          .error (String.intercalate "; also, "
            ((if have_partial_epochs then
                ["at least one epoch is partially but not fully eliminated by an artifact (maybe you want all_or_nothing=True?)"]
              else []) ++
             (if have_overlap then
                ["there is overlap and overlap correction was requested"]
              else [])))
        else .ok requested_strategy
      else .error "ValueError: Unknown regression strategy requested"

/-! ### The discretization prologue of `_epoch_info_and_spans`
(rerp.py:418-437) -/

/-- Modelled from the spec: `DataFormat.ms_to_ticks` lives in `pyrerp/data.py`,
which is not among the staged sources.  Spec section 4.1 says the extractor
"discretizes start_time/stop_time into ticks (round the start up, the stop
down, to guarantee the selected ticks lie within the requested real-time
bounds)".  At `hz` samples per second, tick `k` sits at `k * 1000 / hz`
milliseconds, so a time `t` (ms) is `t * hz / 1000` in tick units, rounded up
or down as requested; this reproduces all the rounding cases of the source's
own `test__epoch_info_and_spans` (rerp.py:508-531). -/
def ms_to_ticks (hz : ℚ) (t : ℚ) (round_up : Bool) : Int :=
  if round_up then ⌈t * hz / 1000⌉ else ⌊t * hz / 1000⌋

/-- The window computation and range check of `_epoch_info_and_spans`
(rerp.py:420-437): round the start up and the stop down to ticks, turn the
closed tick interval into a half-open one by `stop_tick += 1`, and raise
`ValueError` when the window holds no data point. -/
def epoch_info_and_spans_window (hz : ℚ) (start_time stop_time : ℚ) :
    Except String (Int × Int) :=
  let start_tick := ms_to_ticks hz start_time true
  let stop_tick := ms_to_ticks hz stop_time false + 1
  if stop_tick ≤ start_tick then
    .error "ValueError: requested epoch span contains no data points"
  else .ok (start_tick, stop_tick)

/-! ### `rERPRequest.__init__` (rerp.py:24-39) -/

/-- The attributes `rERPRequest.__init__` stores.  `eval_env` is owned by the
external patsy collaborator and is omitted. -/
structure rERPRequest where
  event_query : String
  start_time : ℚ
  stop_time : ℚ
  formula : String
  name : String
  all_or_nothing : Bool
  deriving DecidableEq

/-- Embeds `rERPRequest.__init__` (rerp.py:25-39): default the name to
`"<event_query>: <formula>"` when none is given, then raise `ValueError`
when the stop time comes before the start time. -/
def rERPRequest_init (event_query : String) (start_time stop_time : ℚ)
    (formula : String) (name : Option String) (all_or_nothing : Bool) :
    Except String rERPRequest :=
  let name := match name with
    | none => event_query ++ ": " ++ formula
    | some n => n
  if stop_time < start_time then
    .error "ValueError: start time comes after stop time"
  else
    .ok ⟨event_query, start_time, stop_time, formula, name, all_or_nothing⟩

/-! ### `_artifact_spans` (rerp.py:236-256) -/

/-- A Python field value as far as `_artifact_spans` can observe it:
`isinstance(value, basestring)` distinguishes strings from everything else. -/
inductive PyValue where
  | pstr (s : String)
  | pint (n : Int)
  | pbool (b : Bool)
  | pnone
  deriving DecidableEq

/-- The slice of an `Event` that `_artifact_spans` reads. -/
structure Event where
  recspan_id : Int
  start_tick : Int
  stop_tick : Int
  fields : List (String × PyValue)
  deriving DecidableEq

/-- The slice of a `recspan_info` that `_artifact_spans` reads. -/
structure RecspanInfo where
  id : Int
  ticks : Int
  deriving DecidableEq

/-- `event.get(key)`: first binding of a field name, if any. -/
def fget : List (String × PyValue) → String → Option PyValue
  | [], _ => none
  | (a, v) :: rest, k => if a = k then some v else fget rest k

/-- `artifact_event.get(artifact_type_field, "_UNKNOWN")` followed by the
`isinstance(artifact_type, basestring)` check (rerp.py:249-252): a missing
field falls back to the string `"_UNKNOWN"`, a present non-string value is a
`TypeError`. -/
def artifactTypeOf (ev : Event) (artifact_type_field : String) :
    Except String String :=
  match fget ev.fields artifact_type_field with
  | none => .ok "_UNKNOWN"
  | some (.pstr s) => .ok s
  | some _ => .error "TypeError: artifact type must be a string"

/-- The per-event half of `_artifact_spans` (rerp.py:248-256): one
`_DataSpan` per artifact event, aborting at the first non-string artifact
type. -/
def eventArtifactSpans : List Event → String → Except String (List DataSpan)
  | [], _ => .ok []
  | ev :: rest, fld =>
      match artifactTypeOf ev fld with
      | .error msg => .error msg
      | .ok t =>
          match eventArtifactSpans rest fld with
          | .error msg => .error msg
          | .ok spans =>
              .ok (⟨pos ev.recspan_id ev.start_tick,
                    pos ev.recspan_id ev.stop_tick, none, some t⟩ :: spans)

/-- Embeds `_artifact_spans` (rerp.py:236-256).  The recording-storage and
event-query collaborators are external, so the function takes the recspan
infos and the events matching `artifact_query` directly.  For every recording
it yields the two `_NO_RECORDING` sentinels with `±2**31` open bounds, then
one span per artifact event. -/
def artifact_spans (recspan_infos : List RecspanInfo)
    (artifact_events : List Event) (artifact_type_field : String) :
    Except String (List DataSpan) :=
  let sentinels := recspan_infos.flatMap fun ri =>
    [⟨pos ri.id (-(2 ^ 31)), pos ri.id 0, none, some "_NO_RECORDING"⟩,
     ⟨pos ri.id ri.ticks, pos ri.id (2 ^ 31), none, some "_NO_RECORDING"⟩]
  match eventArtifactSpans artifact_events artifact_type_field with
  | .error msg => .error msg
  | .ok evspans => .ok (sentinels ++ evspans)

/-! ### Concrete scenario data used by counterexamples and witnesses -/

/-- Epoch A of the spec's section-8 scenario: window `[0, 10)`. -/
def eA : Epoch := ⟨0, 0, 0, 10, 0, false⟩

/-- Epoch B of the spec's section-8 scenario: window `[5, 15)`. -/
def eB : Epoch := ⟨1, 0, 5, 10, 0, false⟩

/-- The empty heap: no epoch carries intrinsic artifacts. -/
def ia0 : Store := []

/-- Epoch A's span: `[0, 10)` on recording 0. -/
def spanA : DataSpan := ⟨pos 0 0, pos 0 10, some eA, none⟩

/-- Epoch B's span: `[5, 15)` on recording 0. -/
def spanB : DataSpan := ⟨pos 0 5, pos 0 15, some eB, none⟩

/-- The two overlapping epoch spans `[0,10)` and `[5,15)` on recording 0. -/
def spansAB : List DataSpan := [spanA, spanB]

/-- The subspans the sweep produces for `spansAB` without overlap
correction: a private copy per epoch. -/
def outABfalse : List DataSubSpan :=
  [⟨pos 0 0, pos 0 5, [eA], ∅⟩, ⟨pos 0 5, pos 0 10, [eA], ∅⟩,
   ⟨pos 0 5, pos 0 10, [eB], ∅⟩, ⟨pos 0 10, pos 0 15, [eB], ∅⟩]

/-- A lone artifact span `[0, 5)` on recording 0, live epochs nowhere. -/
def spanArt : DataSpan := ⟨pos 0 0, pos 0 5, none, some "blink"⟩

/-- All-or-nothing epochs chained by pairwise overlap (the spec's section-8
flood-fill scenario): windows `[0,100) [50,200) [150,300) [250,400)`. -/
def chainEpoch (i : Nat) (s : Int) : Epoch := ⟨i, 0, s, 0, 0, true⟩

/-- The chained scenario's span list: four all-or-nothing epochs plus one
artifact at `[10, 11)`. -/
def spansChain : List DataSpan :=
  [⟨pos 0 0, pos 0 100, some (chainEpoch 0 0), none⟩,
   ⟨pos 0 50, pos 0 200, some (chainEpoch 1 50), none⟩,
   ⟨pos 0 150, pos 0 300, some (chainEpoch 2 150), none⟩,
   ⟨pos 0 250, pos 0 400, some (chainEpoch 3 250), none⟩,
   ⟨pos 0 10, pos 0 11, none, some "blink"⟩]

/-- A global bucket showing equal accepted event-ticks and accepted ticks
(so the code sees no overlap) but zero overlap-free accepted ticks. -/
def gaiX : ArtifactInfo := ⟨0, 0, 0, 0, 0, 10, 0, 10, 0, 0, []⟩

/-- An artifact event with no fields at all: in particular no value for the
artifact-type field. -/
def ev0 : Event := ⟨0, 5, 7, []⟩

/-- A single 100-tick recording. -/
def ri0 : RecspanInfo := ⟨0, 100⟩

/-! ### Proof-support definitions -/

/-- The value a counter dict associates to a key, zero when absent. -/
def aval [DecidableEq α] (d : List (α × Int)) (k : α) : Int :=
  (alookup d k).getD 0

/-- A counter dict faithfully represents a count function: its keys are
distinct, every stored value is positive, and the stored value of every key
(zero when absent) is the count. -/
structure AMap [DecidableEq α] (d : List (α × Int)) (cnt : α → Int) : Prop where
  nodup : (d.map Prod.fst).Nodup
  pos : ∀ q ∈ d, 0 < q.2
  val : ∀ a, aval d a = cnt a

/-- Net boundary-event count of one key over a processed event prefix:
number of its `+1` events minus number of its `-1` events, the value the
sweep's counter dicts hold.  `selEv` picks the epoch or the artifact slot. -/
def cntOf [DecidableEq κ] (selEv : StateChange → Option κ)
    (done : List StateChange) (k : κ) : Int :=
  ((done.countP fun ev => decide (selEv ev = some k ∧ ev.change = 1)) : Int) -
  ((done.countP fun ev => decide (selEv ev = some k ∧ ev.change = -1)) : Int)

/-- The state of the sweep after processing the event prefix `done`, about to
process `todo`, with `lastPos` the position of the last processed event. -/
structure SweepCtx (spans : List DataSpan) (todo done : List StateChange)
    (lastPos : Option Pos) : Prop where
  perm : (done ++ todo).Perm (stateChanges spans)
  sorted : todo.Sorted scLe
  done_le : ∀ ev ∈ done, ∀ l, lastPos = some l → ev.position ≤ l
  done_nil : lastPos = none → done = []
  todo_ge : ∀ ev ∈ todo, ∀ l, lastPos = some l → l ≤ ev.position

/-- A position lies in the half-open interval of a subspan. -/
def inSub (sub : DataSubSpan) (q : Pos) : Prop := sub.start ≤ q ∧ q < sub.stop

instance (sub : DataSubSpan) (q : Pos) : Decidable (inSub sub q) :=
  inferInstanceAs (Decidable (sub.start ≤ q ∧ q < sub.stop))

/-- Some subspan of the list covers the position. -/
def covers (out : List DataSubSpan) (q : Pos) : Prop := ∃ sub ∈ out, inSub sub q

instance (out : List DataSubSpan) (q : Pos) : Decidable (covers out q) :=
  inferInstanceAs (Decidable (∃ sub ∈ out, inSub sub q))

/-- A position lies in the half-open interval of an input span. -/
def spanCovers (s : DataSpan) (q : Pos) : Prop := s.start ≤ q ∧ q < s.stop

instance (s : DataSpan) (q : Pos) : Decidable (spanCovers s q) :=
  inferInstanceAs (Decidable (s.start ≤ q ∧ q < s.stop))

/-- Two subspans in emission order either share one interval exactly or are
disjoint, the earlier one ending before the later one starts. -/
def subR (a b : DataSubSpan) : Prop :=
  (a.start = b.start ∧ a.stop = b.stop) ∨ a.stop ≤ b.start

/-- Two subspans in emission order are disjoint. -/
def subD (a b : DataSubSpan) : Prop := a.stop ≤ b.start

/-- Total tick length of the subspans naming a given epoch. -/
def sumFor (e : Epoch) (out : List DataSubSpan) : Int :=
  ((out.filter fun sub => decide (e ∈ sub.epochs)).map
    fun sub => tickOf sub.stop - tickOf sub.start).sum

/-- The tick length of the part of a span not yet swept past: the whole span
before the sweep starts, the part after `l` once the sweep stands at `l`,
nothing once the sweep has passed the span's stop. -/
def sumTarget (s0 : DataSpan) (lastPos : Option Pos) : Int :=
  match lastPos with
  | none => tickOf s0.stop - tickOf s0.start
  | some l =>
      if s0.stop ≤ l then 0
      else tickOf s0.stop - tickOf (if s0.start ≤ l then l else s0.start)

/-- How one subspan of a sweep run under the heap `ia1` relates to the
corresponding subspan of the run under the heap `ia2`: same interval, same
live epochs, and the artifact sets share a common heap-independent part
(the live artifact spans) unioned with the respective heaps' intrinsic
artifacts of the live epochs. -/
def subSim (ia1 ia2 : Store) (a b : DataSubSpan) : Prop :=
  a.start = b.start ∧ a.stop = b.stop ∧ a.epochs = b.epochs ∧
    ∃ base : Finset String,
      a.artifacts = base ∪ intrinsicsOf ia1 a.epochs ∧
      b.artifacts = base ∪ intrinsicsOf ia2 b.epochs

/-- Distinct epoch objects tagged on the spans carry distinct ids: the
embedding's `id` field stands for Python object identity (`is`), so two
span-tagged epochs that agree on `id` must be the same epoch. -/
def idInjective (spans : List DataSpan) : Bool :=
  spans.all fun s => spans.all fun s' =>
    match s.epoch, s'.epoch with
    | some ea, some eb => if ea.id = eb.id then decide (ea = eb) else true
    | _, _ => true

/-! ## Association-list counter lemmas -/

theorem alookup_eq_none [DecidableEq α] (d : List (α × Int)) (k : α) :
    alookup d k = none ↔ k ∉ d.map Prod.fst := by
  induction d with
  | nil => simp [alookup]
  | cons q rest ih =>
      obtain ⟨a, v⟩ := q
      by_cases h : a = k
      · subst h
        simp [alookup]
      · have hka : ¬k = a := fun hh => h hh.symm
        rw [List.map_cons, List.mem_cons, not_or]
        simp only [alookup, if_neg h]
        rw [ih]
        exact ⟨fun hh => ⟨hka, hh⟩, fun hh => hh.2⟩

theorem alookup_mem [DecidableEq α] {d : List (α × Int)} {k : α} {v : Int}
    (h : alookup d k = some v) : (k, v) ∈ d := by
  induction d with
  | nil => simp [alookup] at h
  | cons q rest ih =>
      obtain ⟨a, w⟩ := q
      by_cases ha : a = k
      · subst ha
        simp [alookup] at h
        subst h
        exact List.mem_cons_self _ _
      · simp only [alookup, if_neg ha] at h
        exact List.mem_cons_of_mem _ (ih h)

theorem alookup_of_mem_nodup [DecidableEq α] {d : List (α × Int)}
    (hn : (d.map Prod.fst).Nodup) {a : α} {v : Int} (h : (a, v) ∈ d) :
    alookup d a = some v := by
  induction d with
  | nil => simp at h
  | cons q rest ih =>
      obtain ⟨b, w⟩ := q
      rw [List.map_cons, List.nodup_cons] at hn
      rcases List.mem_cons.mp h with h | h
      · rw [Prod.mk.injEq] at h
        obtain ⟨h1, h2⟩ := h
        subst h1
        subst h2
        simp [alookup]
      · have hba : ¬b = a := by
          intro hba
          apply hn.1
          rw [hba]
          exact List.mem_map.mpr ⟨(a, v), h, rfl⟩
        simp only [alookup, if_neg hba]
        exact ih hn.2 h

theorem alookup_append_single [DecidableEq α] (d : List (α × Int)) (k a : α)
    (v : Int) :
    alookup (d ++ [(k, v)]) a =
      match alookup d a with
      | some w => some w
      | none => if k = a then some v else none := by
  induction d with
  | nil => simp [alookup]
  | cons q rest ih =>
      obtain ⟨b, w⟩ := q
      by_cases hb : b = a
      · simp [alookup, hb]
      · simp [alookup, hb, ih]

theorem alookup_aset [DecidableEq α] (d : List (α × Int)) (k a : α) (nv : Int) :
    alookup (aset d k nv) a =
      if a = k then (alookup d k).map fun _ => nv else alookup d a := by
  induction d with
  | nil => by_cases hak : a = k <;> simp [alookup, aset, hak]
  | cons q rest ih =>
      obtain ⟨b, w⟩ := q
      by_cases hbk : b = k
      · subst hbk
        by_cases hab : a = b
        · subst hab
          simp [alookup, aset]
        · have hba : ¬b = a := fun hh => hab hh.symm
          simp [alookup, aset, hab, hba]
      · by_cases hba : b = a
        · have hak : ¬a = k := fun hh => hbk (hba.trans hh)
          simp only [aset, if_neg hbk, alookup, if_pos hba, if_neg hak]
        · by_cases hak : a = k
          · simp only [aset, if_neg hbk, alookup, if_neg hba, ih, if_pos hak]
          · simp only [aset, if_neg hbk, alookup, if_neg hba, ih, if_neg hak]

theorem map_fst_aset [DecidableEq α] (d : List (α × Int)) (k : α) (nv : Int) :
    (aset d k nv).map Prod.fst = d.map Prod.fst := by
  induction d with
  | nil => simp [aset]
  | cons q rest ih =>
      obtain ⟨b, w⟩ := q
      by_cases hbk : b = k
      · simp [aset, hbk]
      · simp [aset, hbk, ih]

theorem mem_aset_nodup [DecidableEq α] {d : List (α × Int)}
    (hn : (d.map Prod.fst).Nodup) {k : α} {nv : Int} {q : α × Int}
    (hq : q ∈ aset d k nv) :
    (q ∈ d ∧ q.1 ≠ k) ∨ q = (k, nv) := by
  induction d with
  | nil => simp [aset] at hq
  | cons b rest ih =>
      obtain ⟨b, w⟩ := b
      simp only [List.map_cons, List.nodup_cons] at hn
      by_cases hbk : b = k
      · subst hbk
        simp only [aset, if_pos rfl] at hq
        rcases List.mem_cons.mp hq with h | h
        · exact Or.inr h
        · refine Or.inl ⟨List.mem_cons_of_mem _ h, ?_⟩
          intro h1
          exact hn.1 (h1 ▸ List.mem_map_of_mem Prod.fst h)
      · simp only [aset, if_neg hbk] at hq
        rcases List.mem_cons.mp hq with h | h
        · exact Or.inl ⟨List.mem_cons.mpr (Or.inl h), h ▸ hbk⟩
        · rcases ih hn.2 h with ⟨h1, h2⟩ | h1
          · exact Or.inl ⟨List.mem_cons_of_mem _ h1, h2⟩
          · exact Or.inr h1

theorem aerase_sublist [DecidableEq α] (d : List (α × Int)) (k : α) :
    (aerase d k).Sublist d := by
  induction d with
  | nil => simp [aerase]
  | cons q rest ih =>
      obtain ⟨b, w⟩ := q
      by_cases hbk : b = k
      · rw [aerase, if_pos hbk]
        exact List.sublist_cons_self _ _
      · rw [aerase, if_neg hbk]
        exact ih.cons₂ (b, w)

theorem alookup_aerase [DecidableEq α] {d : List (α × Int)}
    (hn : (d.map Prod.fst).Nodup) (k a : α) :
    alookup (aerase d k) a = if a = k then none else alookup d a := by
  induction d with
  | nil => by_cases hak : a = k <;> simp [alookup, aerase, hak]
  | cons q rest ih =>
      obtain ⟨b, w⟩ := q
      rw [List.map_cons, List.nodup_cons] at hn
      by_cases hbk : b = k
      · subst hbk
        rw [aerase, if_pos rfl]
        by_cases hab : a = b
        · subst hab
          rw [if_pos rfl]
          exact (alookup_eq_none rest a).mpr hn.1
        · have hba : ¬b = a := fun hh => hab hh.symm
          rw [if_neg hab, alookup, if_neg hba]
      · rw [aerase, if_neg hbk]
        by_cases hba : b = a
        · have hak : ¬a = k := fun hh => hbk (hba.trans hh)
          rw [alookup, if_pos hba, if_neg hak, alookup, if_pos hba]
        · rw [alookup, if_neg hba, ih hn.2]
          by_cases hak : a = k
          · rw [if_pos hak, if_pos hak]
          · rw [if_neg hak, if_neg hak, alookup, if_neg hba]

theorem bump_present [DecidableEq α] {d : List (α × Int)} {k : α} {v : Int}
    (hlk : alookup d k = some v) (c : Int) :
    bump d k c =
      if c = -1 ∧ v + c = 0 then .ok (aerase (aset d k (v + c)) k)
      else .ok (aset d k (v + c)) := by
  unfold bump
  simp [hlk]

theorem bump_absent [DecidableEq α] {d : List (α × Int)} {k : α}
    (hlk : alookup d k = none) :
    bump d k 1 = .ok (aset (d ++ [(k, 0)]) k 1) := by
  have h0 : alookup (d ++ [(k, 0)]) k = some 0 := by
    rw [alookup_append_single, hlk]
    simp
  unfold bump
  simp [hlk, h0]

theorem bump_ok [DecidableEq α] {d : List (α × Int)} {cnt : α → Int}
    (h : AMap d cnt) (k : α) (c : Int) (hc : c = 1 ∨ c = -1)
    (hneg : c = -1 → 0 < cnt k) :
    ∃ d', bump d k c = .ok d' ∧
      AMap d' fun a => if a = k then cnt a + c else cnt a := by
  rcases hlk : alookup d k with _ | v
  · -- absent key: the guard forces c = 1 and a fresh (k, 0) entry is appended
    have hcnt0 : cnt k = 0 := by
      have hv := h.val k
      rw [aval, hlk] at hv
      simpa using hv.symm
    have hc1 : c = 1 := by
      rcases hc with hc | hc
      · exact hc
      · exact absurd (hneg hc) (by simp [hcnt0])
    subst hc1
    have hknotin : k ∉ d.map Prod.fst := (alookup_eq_none d k).mp hlk
    have hd1 : alookup (d ++ [(k, 0)]) k = some 0 := by
      rw [alookup_append_single, hlk]
      simp
    have hnodup1 : ((d ++ [(k, 0)]).map Prod.fst).Nodup := by
      rw [List.map_append]
      exact List.Nodup.append h.nodup (by simp)
        ((List.disjoint_singleton).mpr hknotin)
    refine ⟨aset (d ++ [(k, 0)]) k 1, bump_absent hlk, ?_, ?_, ?_⟩
    · rwa [map_fst_aset]
    · intro q hq
      rcases mem_aset_nodup hnodup1 hq with ⟨hq1, hq2⟩ | hq1
      · rcases List.mem_append.mp hq1 with hq1 | hq1
        · exact h.pos q hq1
        · simp at hq1
          exact absurd (by rw [hq1]) hq2
      · simp [hq1]
    · intro a
      rw [aval, alookup_aset]
      by_cases hak : a = k
      · subst hak
        simp [hd1, hcnt0]
      · rw [if_neg hak, if_neg hak, alookup_append_single, ← h.val a, aval]
        rcases hda : alookup d a with _ | w
        · have hka : ¬k = a := fun hh => hak hh.symm
          simp [hda, hka]
        · simp [hda]
  · -- present key with positive value v
    have hvmem : (k, v) ∈ d := alookup_mem hlk
    have hvpos : 0 < v := h.pos _ hvmem
    have hcntv : cnt k = v := by
      have hv := h.val k
      rw [aval, hlk, Option.getD_some] at hv
      exact hv.symm
    by_cases hz : c = -1 ∧ v + c = 0
    · -- the count drops to zero: the entry is deleted
      have hnset : ((aset d k (v + c)).map Prod.fst).Nodup := by
        rw [map_fst_aset]
        exact h.nodup
      have hnerase : ((aerase (aset d k (v + c)) k).map Prod.fst).Nodup :=
        ((aerase_sublist _ _).map Prod.fst).nodup hnset
      refine ⟨aerase (aset d k (v + c)) k, ?_, ?_, ?_, ?_⟩
      · rw [bump_present hlk, if_pos hz]
      · exact hnerase
      · intro q hq
        have hq2 := (aerase_sublist _ _).mem hq
        rcases mem_aset_nodup h.nodup hq2 with ⟨hq3, _⟩ | hq3
        · exact h.pos q hq3
        · exfalso
          have hlq : alookup (aerase (aset d k (v + c)) k) q.1 = some q.2 :=
            alookup_of_mem_nodup hnerase hq
          rw [alookup_aerase hnset, hq3] at hlq
          simp at hlq
      · intro a
        rw [aval, alookup_aerase hnset]
        by_cases hak : a = k
        · subst hak
          simp [hcntv, if_pos rfl]
          omega
        · rw [if_neg hak, alookup_aset, if_neg hak, ← aval, h.val, if_neg hak]
    · -- the updated value stays positive
      have hvc : 0 < v + c := by
        rcases hc with hc | hc
        · subst hc
          omega
        · subst hc
          have hnz : v + (-1) ≠ 0 := fun hh => hz ⟨rfl, hh⟩
          omega
      refine ⟨aset d k (v + c), ?_, ?_, ?_, ?_⟩
      · rw [bump_present hlk, if_neg hz]
      · rw [map_fst_aset]
        exact h.nodup
      · intro q hq
        rcases mem_aset_nodup h.nodup hq with ⟨hq1, _⟩ | hq1
        · exact h.pos q hq1
        · rw [hq1]
          exact hvc
      · intro a
        rw [aval, alookup_aset]
        by_cases hak : a = k
        · subst hak
          simp [hlk, hcntv]
        · rw [if_neg hak, ← aval, h.val, if_neg hak]

theorem AMap.mem_keys [DecidableEq α] {d : List (α × Int)} {cnt : α → Int}
    (h : AMap d cnt) (k : α) : k ∈ d.map Prod.fst ↔ 0 < cnt k := by
  constructor
  · intro hk
    rcases List.mem_map.mp hk with ⟨q, hmem, hq⟩
    have hl : alookup d q.1 = some q.2 :=
      alookup_of_mem_nodup h.nodup (show (q.1, q.2) ∈ d from hmem)
    have hval := h.val q.1
    rw [aval, hl, Option.getD_some] at hval
    rw [← hq, ← hval]
    exact h.pos q hmem
  · intro hk
    by_contra hnot
    have hnone := (alookup_eq_none d k).mpr hnot
    have hval := h.val k
    rw [aval, hnone] at hval
    simp at hval
    rw [← hval] at hk
    exact lt_irrefl 0 hk

theorem AMap.eq_nil [DecidableEq α] {d : List (α × Int)} {cnt : α → Int}
    (h : AMap d cnt) (h0 : ∀ k, cnt k ≤ 0) : d = [] := by
  cases d with
  | nil => rfl
  | cons q rest =>
      obtain ⟨a, v⟩ := q
      exfalso
      have hmem : (a, v) ∈ (a, v) :: rest := List.mem_cons_self _ _
      have hpos := h.pos _ hmem
      have := alookup_of_mem_nodup h.nodup hmem
      have hval := h.val a
      rw [aval, this, Option.getD_some] at hval
      exact absurd (hval ▸ hpos) (not_lt.mpr (h0 a))

theorem AMap.ne_nil [DecidableEq α] {d : List (α × Int)} {cnt : α → Int}
    (h : AMap d cnt) (hne : d ≠ []) : ∃ k, 0 < cnt k := by
  cases d with
  | nil => exact absurd rfl hne
  | cons q rest =>
      obtain ⟨a, v⟩ := q
      refine ⟨a, ?_⟩
      exact (h.mem_keys a).mp (by simp)

theorem AMap.congr [DecidableEq α] {d : List (α × Int)} {cnt cnt' : α → Int}
    (h : AMap d cnt) (he : ∀ a, cnt a = cnt' a) : AMap d cnt' :=
  ⟨h.nodup, h.pos, fun a => (h.val a).trans (he a)⟩

theorem AMap.nil [DecidableEq α] : AMap ([] : List (α × Int)) fun _ => (0 : Int) :=
  ⟨by simp, by simp, fun a => by simp [aval, alookup]⟩

/-! ## Counting lemmas for boundary events -/

theorem countP_stateChanges (P : StateChange → Bool) (spans : List DataSpan) :
    (stateChanges spans).countP P =
      spans.countP (fun s => P (startEv s)) + spans.countP (fun s => P (stopEv s)) := by
  induction spans with
  | nil => simp [stateChanges]
  | cons s rest ih =>
      have hsc : stateChanges (s :: rest) =
          [startEv s, stopEv s] ++ stateChanges rest := by
        simp [stateChanges, List.flatMap_cons]
      rw [hsc, List.countP_append, List.countP_cons, List.countP_cons,
        List.countP_cons, List.countP_cons, List.countP_nil, ih]
      by_cases h1 : P (startEv s) <;> by_cases h2 : P (stopEv s) <;>
        simp [h1, h2] <;> omega

theorem countP_sub_of_imp (l : List α) (P Q : α → Bool)
    (himp : ∀ x ∈ l, Q x = true → P x = true) :
    (l.countP P : Int) - l.countP Q = l.countP fun x => P x && !Q x := by
  induction l with
  | nil => simp
  | cons a rest ih =>
      have himp' : ∀ x ∈ rest, Q x = true → P x = true := fun x hx =>
        himp x (List.mem_cons_of_mem _ hx)
      have iha := ih himp'
      rw [List.countP_cons, List.countP_cons, List.countP_cons]
      by_cases hQ : Q a = true
      · have hP := himp a (List.mem_cons_self _ _) hQ
        simp only [hP, hQ, if_pos rfl, Bool.not_true, Bool.and_false, if_neg]
        push_cast
        omega
      · have hQ' : Q a = false := by
          cases hqa : Q a
          · rfl
          · exact absurd hqa hQ
        by_cases hP : P a = true
        · simp only [hP, hQ', Bool.not_false, Bool.and_true, if_pos rfl]
          push_cast
          omega
        · have hP' : P a = false := by
            cases hpa : P a
            · rfl
            · exact absurd hpa hP
          simp only [hP', hQ', Bool.not_false, Bool.false_and]
          push_cast
          omega

/-- The start event of a member span is a boundary event of the list. -/
theorem startEv_mem {s : DataSpan} {spans : List DataSpan} (h : s ∈ spans) :
    startEv s ∈ stateChanges spans :=
  List.mem_flatMap.mpr ⟨s, h, by simp⟩

/-- The stop event of a member span is a boundary event of the list. -/
theorem stopEv_mem {s : DataSpan} {spans : List DataSpan} (h : s ∈ spans) :
    stopEv s ∈ stateChanges spans :=
  List.mem_flatMap.mpr ⟨s, h, by simp⟩

/-- Every boundary event carries change `+1` or `-1`. -/
theorem change_of_mem {x : StateChange} {spans : List DataSpan}
    (h : x ∈ stateChanges spans) : x.change = 1 ∨ x.change = -1 := by
  rcases List.mem_flatMap.mp h with ⟨s, -, hx⟩
  rcases List.mem_cons.mp hx with hx | hx
  · subst hx
    exact Or.inl rfl
  · rcases List.mem_cons.mp hx with hx | hx
    · subst hx
      exact Or.inr rfl
    · simp at hx

/-- Any boundary event of the input lies in the processed prefix or at or
after the head of the remaining work. -/
theorem SweepCtx.event_split {spans todo done lastPos}
    (ctx : SweepCtx spans todo done lastPos) {ev : StateChange}
    {rest : List StateChange} (hT : todo = ev :: rest) {x : StateChange}
    (hx : x ∈ stateChanges spans) : x ∈ done ∨ ev.position ≤ x.position := by
  subst hT
  rcases List.mem_append.mp (ctx.perm.mem_iff.mpr hx) with h | h
  · exact Or.inl h
  · rcases List.mem_cons.mp h with h | h
    · subst h
      exact Or.inr le_rfl
    · exact Or.inr ((List.sorted_cons.mp ctx.sorted).1 x h)

/-- At an emission point (`last_position = l`, next event at `p > l`) every
span endpoint lies at or before `l`, or at or after `p`. -/
theorem SweepCtx.endpoint_split {spans todo done l}
    (ctx : SweepCtx spans todo done (some l)) {ev : StateChange}
    {rest : List StateChange} (hT : todo = ev :: rest) {s : DataSpan}
    (hs : s ∈ spans) :
    (s.start ≤ l ∨ ev.position ≤ s.start) ∧
      (s.stop ≤ l ∨ ev.position ≤ s.stop) := by
  constructor
  · rcases ctx.event_split hT (startEv_mem hs) with h | h
    · exact Or.inl (ctx.done_le _ h l rfl)
    · exact Or.inr h
  · rcases ctx.event_split hT (stopEv_mem hs) with h | h
    · exact Or.inl (ctx.done_le _ h l rfl)
    · exact Or.inr h

/-- At an emission point the processed prefix is, up to permutation, exactly
the set of boundary events strictly before the head position. -/
theorem SweepCtx.done_perm {spans done l} {ev : StateChange}
    {rest : List StateChange}
    (ctx : SweepCtx spans (ev :: rest) done (some l)) (hlt : l < ev.position) :
    done.Perm ((stateChanges spans).filter fun x =>
      decide (x.position < ev.position)) := by
  have hdone : (done.filter fun x => decide (x.position < ev.position)) = done := by
    rw [List.filter_eq_self]
    intro x hx
    exact decide_eq_true (lt_of_le_of_lt (ctx.done_le x hx l rfl) hlt)
  have htodo : ((ev :: rest).filter fun x =>
      decide (x.position < ev.position)) = [] := by
    rw [List.filter_eq_nil_iff]
    intro x hx
    rcases List.mem_cons.mp hx with h | h
    · subst h
      simp
    · have := (List.sorted_cons.mp ctx.sorted).1 x h
      simp only [decide_eq_true_eq]
      exact not_lt.mpr this
  have := ctx.perm.filter fun x => decide (x.position < ev.position)
  rw [List.filter_append, hdone, htodo, List.append_nil] at this
  exact this

/-- Start events matching a key and a position predicate count exactly the
spans of that key whose start satisfies the predicate. -/
theorem countP_start_events [DecidableEq κ] (selEv : StateChange → Option κ)
    (sel : DataSpan → Option κ)
    (hsel : ∀ s : DataSpan, selEv (startEv s) = sel s ∧ selEv (stopEv s) = sel s)
    (spans : List DataSpan) (k : κ) (Q : StateChange → Bool) :
    ((stateChanges spans).countP fun x =>
        decide (selEv x = some k ∧ x.change = 1) && Q x) =
      spans.countP fun s => decide (sel s = some k) && Q (startEv s) := by
  rw [countP_stateChanges]
  have h2 : (spans.countP fun s =>
      decide (selEv (stopEv s) = some k ∧ (stopEv s).change = 1) &&
        Q (stopEv s)) = 0 := by
    rw [List.countP_eq_zero]
    intro s _
    simp [stopEv]
  rw [h2, Nat.add_zero]
  refine List.countP_congr fun s _ => ?_
  rw [(hsel s).1]
  have hch : (startEv s).change = 1 := rfl
  simp [hch]

/-- Stop events matching a key and a position predicate count exactly the
spans of that key whose stop satisfies the predicate. -/
theorem countP_stop_events [DecidableEq κ] (selEv : StateChange → Option κ)
    (sel : DataSpan → Option κ)
    (hsel : ∀ s : DataSpan, selEv (startEv s) = sel s ∧ selEv (stopEv s) = sel s)
    (spans : List DataSpan) (k : κ) (Q : StateChange → Bool) :
    ((stateChanges spans).countP fun x =>
        decide (selEv x = some k ∧ x.change = -1) && Q x) =
      spans.countP fun s => decide (sel s = some k) && Q (stopEv s) := by
  rw [countP_stateChanges]
  have h1 : (spans.countP fun s =>
      decide (selEv (startEv s) = some k ∧ (startEv s).change = -1) &&
        Q (startEv s)) = 0 := by
    rw [List.countP_eq_zero]
    intro s _
    simp [startEv]
  rw [h1, Nat.zero_add]
  refine List.countP_congr fun s _ => ?_
  rw [(hsel s).2]
  have hch : (stopEv s).change = -1 := rfl
  simp [hch]

/-- At an emission point the counter of a key equals the number of its spans
that cover the whole gap `[l, p)`. -/
theorem cnt_char [DecidableEq κ] (selEv : StateChange → Option κ)
    (sel : DataSpan → Option κ)
    (hsel : ∀ s : DataSpan, selEv (startEv s) = sel s ∧ selEv (stopEv s) = sel s)
    {spans done l} {ev : StateChange} {rest : List StateChange}
    (hwf : ∀ s ∈ spans, s.start < s.stop)
    (ctx : SweepCtx spans (ev :: rest) done (some l)) (hlt : l < ev.position)
    (k : κ) :
    cntOf selEv done k =
      (spans.countP fun s =>
        decide (sel s = some k ∧ s.start ≤ l ∧ ev.position ≤ s.stop) : Int) := by
  have hperm := ctx.done_perm hlt
  have e1 := countP_start_events selEv sel hsel spans k
    fun x => decide (x.position < ev.position)
  have e2 := countP_stop_events selEv sel hsel spans k
    fun x => decide (x.position < ev.position)
  simp only [startEv, stopEv] at e1 e2
  unfold cntOf
  rw [List.Perm.countP_eq _ hperm, List.Perm.countP_eq _ hperm]
  simp only [List.countP_filter]
  rw [e1, e2]
  rw [countP_sub_of_imp]
  · refine congrArg _ (List.countP_congr fun s hs => ?_)
    rcases ctx.endpoint_split rfl hs with ⟨hs1, hs2⟩
    by_cases hk : sel s = some k
    · constructor
      · intro hmem
        simp only [Bool.and_eq_true, Bool.not_eq_true', Bool.and_eq_false_iff,
          decide_eq_true_eq, decide_eq_false_iff_not, not_lt] at hmem ⊢
        obtain ⟨⟨-, hstart⟩, hstop⟩ := hmem
        rcases hstop with hstop | hstop
        · exact absurd hk hstop
        · refine ⟨hk, ?_, hstop⟩
          rcases hs1 with h | h
          · exact h
          · exact absurd hstart (not_lt.mpr h)
      · intro hmem
        simp only [decide_eq_true_eq] at hmem
        obtain ⟨-, hstart, hstop⟩ := hmem
        simp only [Bool.and_eq_true, Bool.not_eq_true', Bool.and_eq_false_iff,
          decide_eq_true_eq, decide_eq_false_iff_not, not_lt]
        exact ⟨⟨hk, lt_of_le_of_lt hstart hlt⟩, Or.inr hstop⟩
    · constructor
      · intro hmem
        simp only [Bool.and_eq_true, decide_eq_true_eq] at hmem
        exact absurd hmem.1.1 hk
      · intro hmem
        simp only [decide_eq_true_eq] at hmem
        exact absurd hmem.1 hk
  · intro s hs hQ
    simp only [Bool.and_eq_true, decide_eq_true_eq] at hQ ⊢
    exact ⟨hQ.1, lt_trans (hwf s hs) hQ.2⟩

/-- At an emission point a key is live exactly when one of its spans covers
the whole gap. -/
theorem cnt_pos_iff [DecidableEq κ] (selEv : StateChange → Option κ)
    (sel : DataSpan → Option κ)
    (hsel : ∀ s : DataSpan, selEv (startEv s) = sel s ∧ selEv (stopEv s) = sel s)
    {spans done l} {ev : StateChange} {rest : List StateChange}
    (hwf : ∀ s ∈ spans, s.start < s.stop)
    (ctx : SweepCtx spans (ev :: rest) done (some l)) (hlt : l < ev.position)
    (k : κ) :
    0 < cntOf selEv done k ↔
      ∃ s ∈ spans, sel s = some k ∧ s.start ≤ l ∧ ev.position ≤ s.stop := by
  rw [cnt_char selEv sel hsel hwf ctx hlt k]
  rw [show ((0 : Int) < (spans.countP fun s =>
      decide (sel s = some k ∧ s.start ≤ l ∧ ev.position ≤ s.stop) : Int)) ↔
      0 < spans.countP fun s =>
        decide (sel s = some k ∧ s.start ≤ l ∧ ev.position ≤ s.stop) from by
    exact_mod_cast Iff.rfl]
  rw [List.countP_pos_iff]
  simp only [decide_eq_true_eq]

/-- When the head of the remaining work is a `-1` event of a key, that key's
counter is positive: its span's matching `+1` lies strictly earlier, so the
`KeyError` branch of `bump` is unreachable and the deletion leaves no
negative count. -/
theorem cnt_pos_of_stop_head [DecidableEq κ] (selEv : StateChange → Option κ)
    (sel : DataSpan → Option κ)
    (hsel : ∀ s : DataSpan, selEv (startEv s) = sel s ∧ selEv (stopEv s) = sel s)
    {spans done lastPos} {ev : StateChange} {rest : List StateChange}
    (hwf : ∀ s ∈ spans, s.start < s.stop)
    (ctx : SweepCtx spans (ev :: rest) done lastPos) {k : κ}
    (hk : selEv ev = some k) (hm : ev.change = -1) :
    0 < cntOf selEv done k := by
  have hrest_ge : ∀ x ∈ rest, ev.position ≤ x.position :=
    (List.sorted_cons.mp ctx.sorted).1
  have hdone_le : ∀ x ∈ done, x.position ≤ ev.position := by
    intro x hx
    cases lastPos with
    | none => rw [ctx.done_nil rfl] at hx; simp at hx
    | some l =>
        exact le_trans (ctx.done_le x hx l rfl) (ctx.todo_ge ev (by simp) l rfl)
  -- totals over the whole event list
  have htot1 : done.countP (fun x => decide (selEv x = some k ∧ x.change = 1)) +
      (ev :: rest).countP (fun x => decide (selEv x = some k ∧ x.change = 1)) =
      (stateChanges spans).countP fun x => decide (selEv x = some k ∧ x.change = 1) := by
    rw [← List.countP_append]
    exact List.Perm.countP_eq _ ctx.perm
  have htot2 : done.countP (fun x => decide (selEv x = some k ∧ x.change = -1)) +
      (ev :: rest).countP (fun x => decide (selEv x = some k ∧ x.change = -1)) =
      (stateChanges spans).countP fun x => decide (selEv x = some k ∧ x.change = -1) := by
    rw [← List.countP_append]
    exact List.Perm.countP_eq _ ctx.perm
  have hNtot : ((stateChanges spans).countP fun x =>
      decide (selEv x = some k ∧ x.change = 1)) =
      ((stateChanges spans).countP fun x =>
        decide (selEv x = some k ∧ x.change = -1)) := by
    have e1 : ((stateChanges spans).countP fun x =>
        decide (selEv x = some k ∧ x.change = 1)) =
        spans.countP fun s => decide (sel s = some k) && true := by
      have := countP_start_events selEv sel hsel spans k fun _ => true
      simpa using this
    have e2 : ((stateChanges spans).countP fun x =>
        decide (selEv x = some k ∧ x.change = -1)) =
        spans.countP fun s => decide (sel s = some k) && true := by
      have := countP_stop_events selEv sel hsel spans k fun _ => true
      simpa using this
    rw [e1, e2]
  -- chain: starts in the remaining work are at most stops strictly after p
  have hchain : ((ev :: rest).countP fun x =>
      decide (selEv x = some k ∧ x.change = 1)) ≤
      rest.countP fun x => decide (selEv x = some k ∧ x.change = -1) := by
    have s1 : ((ev :: rest).countP fun x =>
        decide (selEv x = some k ∧ x.change = 1)) =
        rest.countP fun x => decide (selEv x = some k ∧ x.change = 1) := by
      rw [List.countP_cons]
      have hno : ¬(selEv ev = some k ∧ ev.change = 1) := by
        rintro ⟨-, h1⟩
        rw [hm] at h1
        norm_num at h1
      simp [hno]
    have s2 : (rest.countP fun x => decide (selEv x = some k ∧ x.change = 1)) ≤
        (stateChanges spans).countP fun x =>
          decide (selEv x = some k ∧ x.change = 1) &&
            decide (ev.position ≤ x.position) := by
      have s2a : (rest.countP fun x => decide (selEv x = some k ∧ x.change = 1))
          = rest.countP fun x => decide (selEv x = some k ∧ x.change = 1) &&
              decide (ev.position ≤ x.position) := by
        refine (List.countP_congr fun x hx => ?_).symm
        simp only [Bool.and_eq_true, decide_eq_true_eq, and_iff_left_iff_imp]
        intro _
        exact hrest_ge x hx
      have s2b : (rest.countP fun x => decide (selEv x = some k ∧ x.change = 1) &&
            decide (ev.position ≤ x.position)) ≤
          (done ++ ev :: rest).countP fun x =>
            decide (selEv x = some k ∧ x.change = 1) &&
              decide (ev.position ≤ x.position) := by
        rw [List.countP_append, List.countP_cons]
        omega
      rw [s2a]
      exact le_trans s2b (le_of_eq (List.Perm.countP_eq _ ctx.perm))
    have s3 : ((stateChanges spans).countP fun x =>
        decide (selEv x = some k ∧ x.change = 1) &&
          decide (ev.position ≤ x.position)) ≤
        (stateChanges spans).countP fun x =>
          decide (selEv x = some k ∧ x.change = -1) &&
            decide (ev.position < x.position) := by
      have e1 := countP_start_events selEv sel hsel spans k
        fun x => decide (ev.position ≤ x.position)
      have e2 := countP_stop_events selEv sel hsel spans k
        fun x => decide (ev.position < x.position)
      simp only [startEv, stopEv] at e1 e2
      rw [e1, e2]
      refine List.countP_mono_left fun s hs => ?_
      simp only [Bool.and_eq_true, decide_eq_true_eq, and_imp]
      intro h1 h2
      exact ⟨h1, lt_of_le_of_lt h2 (hwf s hs)⟩
    have s4 : ((stateChanges spans).countP fun x =>
        decide (selEv x = some k ∧ x.change = -1) &&
          decide (ev.position < x.position)) =
        (ev :: rest).countP fun x =>
          decide (selEv x = some k ∧ x.change = -1) &&
            decide (ev.position < x.position) := by
      rw [← List.Perm.countP_eq _ ctx.perm, List.countP_append]
      have hd0 : (done.countP fun x =>
          decide (selEv x = some k ∧ x.change = -1) &&
            decide (ev.position < x.position)) = 0 := by
        rw [List.countP_eq_zero]
        intro x hx
        simp only [Bool.and_eq_true, decide_eq_true_eq, not_and]
        intro _
        exact not_lt.mpr (hdone_le x hx)
      rw [hd0, Nat.zero_add]
    have s5 : ((ev :: rest).countP fun x =>
        decide (selEv x = some k ∧ x.change = -1) &&
          decide (ev.position < x.position)) ≤
        rest.countP fun x => decide (selEv x = some k ∧ x.change = -1) := by
      rw [List.countP_cons]
      have hev : ¬((decide (selEv ev = some k ∧ ev.change = -1) &&
          decide (ev.position < ev.position)) = true) := by
        simp
      rw [if_neg hev, Nat.add_zero]
      refine List.countP_mono_left fun x _ => ?_
      intro hx
      simp only [Bool.and_eq_true] at hx
      exact hx.1
    rw [s1]
    exact le_trans s2 (le_trans s3 (le_trans (le_of_eq s4) s5))
  have hhead : ((ev :: rest).countP fun x =>
      decide (selEv x = some k ∧ x.change = -1)) =
      (rest.countP fun x => decide (selEv x = some k ∧ x.change = -1)) + 1 := by
    rw [List.countP_cons]
    simp [hk, hm]
  unfold cntOf
  omega

/-- The counter of any key over the full event list is zero: every span
contributes one matching `+1` and one matching `-1`. -/
theorem cntOf_total [DecidableEq κ] (selEv : StateChange → Option κ)
    (sel : DataSpan → Option κ)
    (hsel : ∀ s : DataSpan, selEv (startEv s) = sel s ∧ selEv (stopEv s) = sel s)
    (spans : List DataSpan) (k : κ) :
    cntOf selEv (stateChanges spans) k = 0 := by
  unfold cntOf
  have e1 := countP_start_events selEv sel hsel spans k fun _ => true
  have e2 := countP_stop_events selEv sel hsel spans k fun _ => true
  simp only [Bool.and_true] at e1 e2
  rw [e1, e2]
  omega

/-- Appending one processed event shifts the counter by its change when the
keys match and leaves it unchanged otherwise. -/
theorem cntOf_append [DecidableEq κ] (selEv : StateChange → Option κ)
    (done : List StateChange) (x : StateChange) (k : κ) :
    cntOf selEv (done ++ [x]) k =
      cntOf selEv done k +
        (if selEv x = some k ∧ x.change = 1 then 1 else 0) -
        (if selEv x = some k ∧ x.change = -1 then 1 else 0) := by
  unfold cntOf
  rw [List.countP_append, List.countP_append, List.countP_cons, List.countP_cons,
    List.countP_nil]
  by_cases h1 : selEv x = some k ∧ x.change = 1 <;>
    by_cases h2 : selEv x = some k ∧ x.change = -1 <;>
      simp [h1, h2] <;> push_cast <;> omega

/-- One sweep step of a counter dict: apply the event's change to its key, if
any; the result keeps representing the counters and never errors. -/
theorem bump_step [DecidableEq κ] (selEv : StateChange → Option κ)
    {d : List (κ × Int)} {done : List StateChange} {x : StateChange}
    (hmap : AMap d (cntOf selEv done))
    (hc : x.change = 1 ∨ x.change = -1)
    (hneg : ∀ k, selEv x = some k → x.change = -1 → 0 < cntOf selEv done k) :
    ∃ d', stepDict (selEv x) d x.change = .ok d' ∧
      AMap d' (cntOf selEv (done ++ [x])) := by
  rcases hsx : selEv x with _ | k
  · refine ⟨d, rfl, hmap.congr fun a => ?_⟩
    rw [cntOf_append]
    simp [hsx]
  · obtain ⟨d', hd', hmap'⟩ := bump_ok hmap k x.change hc (hneg k hsx)
    refine ⟨d', hd', hmap'.congr fun a => ?_⟩
    rw [cntOf_append]
    by_cases hak : a = k
    · subst hak
      rcases hc with h1 | h1 <;> rw [h1] <;> simp [hsx, h1] <;> omega
    · have hka4 : ¬k = a := fun hh => hak hh.symm
      simp [hsx, hak, hka4]

/-! ## Emission-block lemmas -/

theorem covers_append (out1 out2 : List DataSubSpan) (q : Pos) :
    covers (out1 ++ out2) q ↔ covers out1 q ∨ covers out2 q := by
  unfold covers
  constructor
  · rintro ⟨sub, hmem, hin⟩
    rcases List.mem_append.mp hmem with h | h
    · exact Or.inl ⟨sub, h, hin⟩
    · exact Or.inr ⟨sub, h, hin⟩
  · rintro (⟨sub, hmem, hin⟩ | ⟨sub, hmem, hin⟩)
    · exact ⟨sub, List.mem_append.mpr (Or.inl hmem), hin⟩
    · exact ⟨sub, List.mem_append.mpr (Or.inr hmem), hin⟩

theorem mem_emitSub {ia : Store} {oc : Bool} {l p : Pos}
    {ce : List (Epoch × Int)} {ca : List (String × Int)} {sub : DataSubSpan}
    (h : sub ∈ emitSub ia oc l p ce ca) :
    sub.start = l ∧ sub.stop = p ∧
      (∀ e ∈ sub.epochs, e ∈ ce.map Prod.fst) ∧
      (ce ≠ [] → sub.epochs ≠ []) := by
  unfold emitSub at h
  split at h
  · rcases List.mem_singleton.mp h with rfl
    refine ⟨rfl, rfl, fun e he => he, fun hne => ?_⟩
    simp only [ne_eq, List.map_eq_nil_iff]
    exact hne
  · rcases List.mem_map.mp h with ⟨e, he, rfl⟩
    refine ⟨rfl, rfl, fun e' he' => ?_, fun _ => by simp⟩
    rcases List.mem_singleton.mp he' with rfl
    exact (List.perm_insertionSort eLe (ce.map Prod.fst)).mem_iff.mp he

theorem emitSub_covers {ia : Store} {oc : Bool} {l p : Pos}
    {ce : List (Epoch × Int)} {ca : List (String × Int)} (hne : ce ≠ [])
    {q : Pos} (h1 : l ≤ q) (h2 : q < p) :
    covers (emitSub ia oc l p ce ca) q := by
  unfold covers emitSub
  split
  · exact ⟨_, List.mem_singleton.mpr rfl, h1, h2⟩
  · have hkeys : ce.map Prod.fst ≠ [] := by
      simp only [ne_eq, List.map_eq_nil_iff]
      exact hne
    have hsorted_ne : List.insertionSort eLe (ce.map Prod.fst) ≠ [] := by
      intro hnil
      have hlen := (List.perm_insertionSort eLe (ce.map Prod.fst)).length_eq
      rw [hnil] at hlen
      exact hkeys (List.length_eq_zero.mp hlen.symm)
    obtain ⟨e, he⟩ := List.exists_mem_of_ne_nil _ hsorted_ne
    exact ⟨⟨l, p, [e], (ca.map Prod.fst).toFinset ∪ (sget ia e.id).toFinset⟩,
      List.mem_map.mpr ⟨e, he, rfl⟩, h1, h2⟩

theorem emitSub_pairwiseR {ia : Store} {oc : Bool} {l p : Pos}
    {ce : List (Epoch × Int)} {ca : List (String × Int)} :
    List.Pairwise subR (emitSub ia oc l p ce ca) := by
  refine List.pairwise_of_forall_mem_list fun a ha b hb => ?_
  obtain ⟨ha1, ha2, -, -⟩ := mem_emitSub ha
  obtain ⟨hb1, hb2, -, -⟩ := mem_emitSub hb
  exact Or.inl ⟨ha1.trans hb1.symm, ha2.trans hb2.symm⟩

theorem emitSub_pairwiseD {ia : Store} {l p : Pos}
    {ce : List (Epoch × Int)} {ca : List (String × Int)} :
    List.Pairwise subD (emitSub ia true l p ce ca) := by
  unfold emitSub
  split
  · exact List.pairwise_singleton _ _
  · exact absurd rfl (by assumption)

theorem sweepAux_nil (ia : Store) (oc : Bool) (lastPos : Option Pos)
    (ce : List (Epoch × Int)) (ca : List (String × Int)) :
    sweepAux ia oc [] lastPos ce ca =
      if ce = [] ∧ ca = [] then .ok [] else .error "AssertionError" := rfl

theorem sweepAux_cons_ok (ia : Store) (oc : Bool) (sc : StateChange)
    (rest : List StateChange) (lastPos : Option Pos)
    (ce : List (Epoch × Int)) (ca : List (String × Int))
    {ce' : List (Epoch × Int)} {ca' : List (String × Int)}
    {out : List DataSubSpan}
    (h1 : stepDict sc.epoch ce sc.change = .ok ce')
    (h2 : stepDict sc.artifact ca sc.change = .ok ca')
    (h3 : sweepAux ia oc rest (some sc.position) ce' ca' = .ok out) :
    sweepAux ia oc (sc :: rest) lastPos ce ca =
      .ok (emitAt ia oc lastPos sc.position ce ca ++ out) := by
  simp only [sweepAux, h1, h2, h3]

theorem emitAt_none (ia : Store) (oc : Bool) (p : Pos)
    (ce : List (Epoch × Int)) (ca : List (String × Int)) :
    emitAt ia oc none p ce ca = [] := rfl

theorem emitAt_skip (ia : Store) (oc : Bool) {l p : Pos}
    (ce : List (Epoch × Int)) (ca : List (String × Int))
    (h : ¬(p ≠ l ∧ ce ≠ [])) : emitAt ia oc (some l) p ce ca = [] := by
  simp only [emitAt, if_neg h]

theorem emitAt_emit (ia : Store) (oc : Bool) {l p : Pos}
    (ce : List (Epoch × Int)) (ca : List (String × Int))
    (h : p ≠ l ∧ ce ≠ []) :
    emitAt ia oc (some l) p ce ca = emitSub ia oc l p ce ca := by
  simp only [emitAt, if_pos h]

/-! ## The sweep-line master theorem -/

theorem sweep_main (ia : Store) (oc : Bool) (spans : List DataSpan)
    (hwf : ∀ s ∈ spans, s.start < s.stop) :
    ∀ (todo done : List StateChange) (lastPos : Option Pos)
      (ce : List (Epoch × Int)) (ca : List (String × Int)),
      SweepCtx spans todo done lastPos →
      AMap ce (cntOf (fun x => x.epoch) done) →
      AMap ca (cntOf (fun x => x.artifact) done) →
      ∃ out, sweepAux ia oc todo lastPos ce ca = .ok out ∧
        (∀ sub ∈ out,
          (∀ l, lastPos = some l → l ≤ sub.start) ∧ sub.start < sub.stop ∧
          sub.epochs ≠ [] ∧ ∀ e ∈ sub.epochs, ∃ s ∈ spans, s.epoch = some e) ∧
        List.Pairwise subR out ∧
        (oc = true → List.Pairwise subD out) ∧
        (∀ q, covers out q ↔
          ((∀ l, lastPos = some l → l ≤ q) ∧
           ∃ s ∈ spans, s.epoch ≠ none ∧ spanCovers s q)) := by
  intro todo
  induction todo with
  | nil =>
      intro done lastPos ce ca ctx hce hca
      have hdperm : done.Perm (stateChanges spans) := by
        simpa using ctx.perm
      have hce0 : ce = [] := by
        refine hce.eq_nil fun k => le_of_eq ?_
        have h1 : cntOf (fun x => x.epoch) done k =
            cntOf (fun x => x.epoch) (stateChanges spans) k := by
          unfold cntOf
          rw [List.Perm.countP_eq _ hdperm, List.Perm.countP_eq _ hdperm]
        rw [h1,
          cntOf_total (fun x => x.epoch) (fun s => s.epoch) (fun s => ⟨rfl, rfl⟩)]
      have hca0 : ca = [] := by
        refine hca.eq_nil fun k => le_of_eq ?_
        have h1 : cntOf (fun x => x.artifact) done k =
            cntOf (fun x => x.artifact) (stateChanges spans) k := by
          unfold cntOf
          rw [List.Perm.countP_eq _ hdperm, List.Perm.countP_eq _ hdperm]
        rw [h1,
          cntOf_total (fun x => x.artifact) (fun s => s.artifact)
            (fun s => ⟨rfl, rfl⟩)]
      subst hce0
      subst hca0
      refine ⟨[], by rw [sweepAux_nil]; simp, by simp, by simp, by simp, ?_⟩
      intro q
      unfold covers
      simp only [List.not_mem_nil, false_and, exists_false, false_iff, not_and]
      rintro hl ⟨s, hs, -, -, hc2⟩
      have hstop : stopEv s ∈ done := by
        have hmem := ctx.perm.mem_iff.mpr (stopEv_mem hs)
        simpa using hmem
      cases lastPos with
      | some l =>
          have h1 : s.stop ≤ l := ctx.done_le _ hstop l rfl
          have h2 : l ≤ q := hl l rfl
          exact absurd hc2 (not_lt.mpr (le_trans h1 h2))
      | none =>
          rw [ctx.done_nil rfl] at hstop
          simp at hstop
  | cons ev rest ih =>
      intro done lastPos ce ca ctx hce hca
      have hev_mem : ev ∈ stateChanges spans :=
        ctx.perm.mem_iff.mp (List.mem_append.mpr (Or.inr (List.mem_cons_self _ _)))
      have hch := change_of_mem hev_mem
      obtain ⟨ce', hceq, hce'⟩ := bump_step (fun x => x.epoch) hce hch
        fun k hk hm => cnt_pos_of_stop_head (fun x => x.epoch) (fun s => s.epoch)
          (fun s => ⟨rfl, rfl⟩) hwf ctx hk hm
      obtain ⟨ca', hcaq, hca'⟩ := bump_step (fun x => x.artifact) hca hch
        fun k hk hm => cnt_pos_of_stop_head (fun x => x.artifact)
          (fun s => s.artifact) (fun s => ⟨rfl, rfl⟩) hwf ctx hk hm
      have hrest_ge : ∀ x ∈ rest, ev.position ≤ x.position :=
        (List.sorted_cons.mp ctx.sorted).1
      have ctx' : SweepCtx spans rest (done ++ [ev]) (some ev.position) := by
        refine ⟨?_, (List.sorted_cons.mp ctx.sorted).2, ?_,
          fun h => Option.noConfusion h, ?_⟩
        · rw [List.append_assoc, List.singleton_append]
          exact ctx.perm
        · intro x hx l' hl'
          obtain rfl : ev.position = l' := Option.some.inj hl'
          rcases List.mem_append.mp hx with hx | hx
          · cases lastPos with
            | none =>
                rw [ctx.done_nil rfl] at hx
                simp at hx
            | some l =>
                exact le_trans (ctx.done_le x hx l rfl)
                  (ctx.todo_ge ev (List.mem_cons_self _ _) l rfl)
          · rcases List.mem_singleton.mp hx with rfl
            exact le_rfl
        · intro x hx l' hl'
          obtain rfl : ev.position = l' := Option.some.inj hl'
          exact hrest_ge x hx
      obtain ⟨out', hout', hprops', hpairR', hpairD', hcov'⟩ :=
        ih (done ++ [ev]) (some ev.position) ce' ca' ctx' hce' hca'
      have heq := sweepAux_cons_ok ia oc ev rest lastPos ce ca hceq hcaq hout'
      cases lastPos with
      | none =>
          have hblock : emitAt ia oc none ev.position ce ca = [] := rfl
          rw [hblock, List.nil_append] at heq
          have hEp : ∀ q : Pos,
              (∃ s ∈ spans, s.epoch ≠ none ∧ spanCovers s q) →
                ev.position ≤ q := by
            rintro q ⟨s, hs, -, hc1, -⟩
            rcases ctx.event_split rfl (startEv_mem hs) with h | h
            · rw [ctx.done_nil rfl] at h
              simp at h
            · exact le_trans h hc1
          refine ⟨out', heq, ?_, hpairR', hpairD', ?_⟩
          · intro sub hsub
            obtain ⟨-, h2, h3, h4⟩ := hprops' sub hsub
            exact ⟨fun l hl => Option.noConfusion hl, h2, h3, h4⟩
          · intro q
            rw [hcov' q]
            constructor
            · rintro ⟨-, hE⟩
              exact ⟨fun l hl => Option.noConfusion hl, hE⟩
            · rintro ⟨-, hE⟩
              refine ⟨?_, hE⟩
              intro l' hl'
              obtain rfl : ev.position = l' := Option.some.inj hl'
              exact hEp q hE
      | some l =>
          have hlp0 : l ≤ ev.position :=
            ctx.todo_ge ev (List.mem_cons_self _ _) l rfl
          by_cases hcond : ev.position ≠ l ∧ ce ≠ []
          · -- emission case
            have hlp : l < ev.position := lt_of_le_of_ne hlp0 (Ne.symm hcond.1)
            have hblock := emitAt_emit ia oc ce ca hcond
            rw [hblock] at heq
            have hlive : ∀ e : Epoch, e ∈ ce.map Prod.fst ↔
                ∃ s ∈ spans, s.epoch = some e ∧ s.start ≤ l ∧
                  ev.position ≤ s.stop := fun e =>
              (hce.mem_keys e).trans
                (cnt_pos_iff (fun x => x.epoch) (fun s => s.epoch)
                  (fun s => ⟨rfl, rfl⟩) hwf ctx hlp e)
            refine ⟨_, heq, ?_, ?_, ?_, ?_⟩
            · intro sub hsub
              rcases List.mem_append.mp hsub with hsub | hsub
              · obtain ⟨hb1, hb2, hb3, hb4⟩ := mem_emitSub hsub
                refine ⟨?_, ?_, hb4 hcond.2, ?_⟩
                · intro l' hl'
                  obtain rfl : l = l' := Option.some.inj hl'
                  rw [hb1]
                · rw [hb1, hb2]
                  exact hlp
                · intro e he
                  obtain ⟨s, hs, hse, -⟩ := (hlive e).mp (hb3 e he)
                  exact ⟨s, hs, hse⟩
              · obtain ⟨h1, h2, h3, h4⟩ := hprops' sub hsub
                refine ⟨?_, h2, h3, h4⟩
                intro l' hl'
                obtain rfl : l = l' := Option.some.inj hl'
                exact le_trans (le_of_lt hlp) (h1 ev.position rfl)
            · rw [List.pairwise_append]
              refine ⟨emitSub_pairwiseR, hpairR', ?_⟩
              intro a ha b hb
              obtain ⟨-, ha2, -, -⟩ := mem_emitSub ha
              obtain ⟨hb1, -, -, -⟩ := hprops' b hb
              exact Or.inr (ha2 ▸ hb1 ev.position rfl)
            · intro hoc
              subst hoc
              rw [List.pairwise_append]
              refine ⟨emitSub_pairwiseD, hpairD' rfl, ?_⟩
              intro a ha b hb
              obtain ⟨-, ha2, -, -⟩ := mem_emitSub ha
              obtain ⟨hb1, -, -, -⟩ := hprops' b hb
              show a.stop ≤ b.start
              rw [ha2]
              exact hb1 ev.position rfl
            · intro q
              rw [covers_append, hcov' q]
              constructor
              · rintro (⟨sub, hsub, hq1, hq2⟩ | ⟨h1, hE⟩)
                · obtain ⟨hb1, hb2, hb3, hb4⟩ := mem_emitSub hsub
                  rw [hb1] at hq1
                  rw [hb2] at hq2
                  obtain ⟨e, he⟩ :=
                    List.exists_mem_of_ne_nil _ (hb4 hcond.2)
                  obtain ⟨s, hs, hse, hsl, hsp⟩ := (hlive e).mp (hb3 e he)
                  refine ⟨?_, s, hs, by simp [hse], le_trans hsl hq1,
                    lt_of_lt_of_le hq2 hsp⟩
                  intro l' hl'
                  obtain rfl : l = l' := Option.some.inj hl'
                  exact hq1
                · refine ⟨?_, hE⟩
                  intro l' hl'
                  obtain rfl : l = l' := Option.some.inj hl'
                  exact le_trans (le_of_lt hlp) (h1 ev.position rfl)
              · rintro ⟨hl', s, hs, hsome, hc1, hc2⟩
                have hlq : l ≤ q := hl' l rfl
                rcases le_or_lt ev.position q with hpq | hqp
                · refine Or.inr ⟨?_, s, hs, hsome, hc1, hc2⟩
                  intro l'' hl''
                  obtain rfl : ev.position = l'' := Option.some.inj hl''
                  exact hpq
                · refine Or.inl (emitSub_covers hcond.2 hlq hqp)
          · -- no emission
            have hblock := emitAt_skip ia oc ce ca hcond
            rw [hblock, List.nil_append] at heq
            refine ⟨out', heq, ?_, hpairR', hpairD', ?_⟩
            · intro sub hsub
              obtain ⟨h1, h2, h3, h4⟩ := hprops' sub hsub
              refine ⟨?_, h2, h3, h4⟩
              intro l' hl'
              obtain rfl : l = l' := Option.some.inj hl'
              exact le_trans hlp0 (h1 ev.position rfl)
            · intro q
              rw [hcov' q]
              constructor
              · rintro ⟨h1, hE⟩
                refine ⟨?_, hE⟩
                intro l' hl'
                obtain rfl : l = l' := Option.some.inj hl'
                exact le_trans hlp0 (h1 ev.position rfl)
              · rintro ⟨hl', s, hs, hsome, hc1, hc2⟩
                have hlq : l ≤ q := hl' l rfl
                refine ⟨?_, s, hs, hsome, hc1, hc2⟩
                intro l'' hl''
                obtain rfl : ev.position = l'' := Option.some.inj hl''
                by_contra hqp
                push_neg at hqp
                -- q lies in the silent gap [l, p): some epoch would be live
                have hlp : l < ev.position := lt_of_le_of_lt hlq hqp
                have hsl : s.start ≤ l := by
                  rcases (ctx.endpoint_split rfl hs).1 with h | h
                  · exact h
                  · exact absurd (le_trans h hc1) (not_le.mpr hqp)
                have hsp : ev.position ≤ s.stop := by
                  rcases (ctx.endpoint_split rfl hs).2 with h | h
                  · exact absurd hc2 (not_lt.mpr (le_trans h hlq))
                  · exact h
                obtain ⟨e, hse⟩ := Option.ne_none_iff_exists'.mp hsome
                have hkey : e ∈ ce.map Prod.fst := by
                  refine (hce.mem_keys e).mpr ?_
                  refine (cnt_pos_iff (fun x => x.epoch) (fun s => s.epoch)
                    (fun s => ⟨rfl, rfl⟩) hwf ctx hlp e).mpr ?_
                  exact ⟨s, hs, hse, hsl, hsp⟩
                rcases not_and_or.mp hcond with hpl | hce0
                · exact hpl (ne_of_gt hlp)
                · push_neg at hce0
                  rw [hce0] at hkey
                  simp at hkey

/-! ## The per-epoch length bookkeeping of the no-overlap-correction mode -/

theorem sumFor_nil (e : Epoch) : sumFor e [] = 0 := rfl

theorem sumFor_append (e : Epoch) (o1 o2 : List DataSubSpan) :
    sumFor e (o1 ++ o2) = sumFor e o1 + sumFor e o2 := by
  unfold sumFor
  rw [List.filter_append, List.map_append, List.sum_append]

theorem sumFor_map_singleton (l p : Pos) (g : Epoch → Finset String) (e : Epoch)
    (ks : List Epoch) :
    sumFor e (ks.map fun e' => ⟨l, p, [e'], g e'⟩) =
      (tickOf p - tickOf l) * (ks.countP fun e' => decide (e' = e)) := by
  induction ks with
  | nil => simp [sumFor]
  | cons a ks ih =>
      unfold sumFor at ih ⊢
      rw [List.map_cons, List.filter_cons, List.countP_cons]
      by_cases hae : a = e
      · subst hae
        have hd : (decide (a ∈ (⟨l, p, [a], g a⟩ : DataSubSpan).epochs)) = true := by
          simp
        rw [hd, if_pos rfl, List.map_cons, List.sum_cons, ih]
        have hda : (decide (a = a)) = true := by simp
        rw [hda, if_pos rfl]
        push_cast
        ring
      · have hd : (decide (e ∈ (⟨l, p, [a], g a⟩ : DataSubSpan).epochs)) = false := by
          simp only [decide_eq_false_iff_not, List.mem_singleton]
          exact fun hh => hae hh.symm
        rw [hd, if_neg (by simp), ih]
        have hda : (decide (a = e)) = false := by
          simp only [decide_eq_false_iff_not]
          exact hae
        rw [hda, if_neg (by simp), Nat.add_zero]

theorem sumTarget_stable {s0 : DataSpan} {l p : Pos} (hlp : l ≤ p)
    (hss : s0.start < s0.stop)
    (hd1 : s0.start ≤ l ∨ p ≤ s0.start) (hd2 : s0.stop ≤ l ∨ p ≤ s0.stop)
    (hnc : ¬(s0.start ≤ l ∧ p ≤ s0.stop)) :
    sumTarget s0 (some l) = sumTarget s0 (some p) := by
  simp only [sumTarget]
  by_cases h1 : s0.stop ≤ l
  · rw [if_pos h1, if_pos (le_trans h1 hlp)]
  · have hps : p ≤ s0.stop := by
      rcases hd2 with h | h
      · exact absurd h h1
      · exact h
    have hsl : ¬s0.start ≤ l := fun hh => hnc ⟨hh, hps⟩
    have hpstart : p ≤ s0.start := by
      rcases hd1 with h | h
      · exact absurd h hsl
      · exact h
    have h2 : ¬s0.stop ≤ p := fun hh =>
      lt_irrefl p (lt_of_le_of_lt hpstart (lt_of_lt_of_le hss hh))
    rw [if_neg h1, if_neg h2, if_neg hsl]
    by_cases hsp : s0.start ≤ p
    · have heq : s0.start = p := le_antisymm hsp hpstart
      rw [if_pos hsp, heq]
    · rw [if_neg hsp]

theorem sumTarget_step {s0 : DataSpan} {l p : Pos} (hlp : l < p)
    (hc1 : s0.start ≤ l) (hc2 : p ≤ s0.stop) :
    sumTarget s0 (some l) = (tickOf p - tickOf l) + sumTarget s0 (some p) := by
  simp only [sumTarget]
  have h1 : ¬s0.stop ≤ l := fun hh =>
    lt_irrefl l (lt_of_lt_of_le hlp (le_trans hc2 hh))
  rw [if_neg h1, if_pos hc1]
  by_cases h2 : s0.stop ≤ p
  · have heq : s0.stop = p := le_antisymm h2 hc2
    rw [if_pos h2, heq]
    ring
  · have hsp : s0.start ≤ p := le_trans hc1 (le_of_lt hlp)
    rw [if_neg h2, if_pos hsp]
    ring

theorem sumTarget_init {s0 : DataSpan} {p : Pos} (hps : p ≤ s0.start)
    (hss : s0.start < s0.stop) :
    sumTarget s0 none = sumTarget s0 (some p) := by
  simp only [sumTarget]
  have h2 : ¬s0.stop ≤ p := fun hh =>
    lt_irrefl p (lt_of_le_of_lt hps (lt_of_lt_of_le hss hh))
  rw [if_neg h2]
  by_cases hsp : s0.start ≤ p
  · have heq : s0.start = p := le_antisymm hsp hps
    rw [if_pos hsp, heq]
  · rw [if_neg hsp]

/-- With exactly one span tagged by an epoch, any tagged member span is that
span. -/
theorem unique_span_of_countP {spans : List DataSpan} {e : Epoch}
    {s0 s : DataSpan}
    (huniq : spans.countP (fun s => decide (s.epoch = some e)) = 1)
    (hs0 : s0 ∈ spans) (hse0 : s0.epoch = some e)
    (hs : s ∈ spans) (hse : s.epoch = some e) : s = s0 := by
  by_contra hne
  have hmem0 : s0 ∈ spans.filter fun s => decide (s.epoch = some e) :=
    List.mem_filter.mpr ⟨hs0, by simp [hse0]⟩
  have hmem : s ∈ spans.filter fun s => decide (s.epoch = some e) :=
    List.mem_filter.mpr ⟨hs, by simp [hse]⟩
  have hcard : 1 < ((spans.filter fun s =>
      decide (s.epoch = some e)).toFinset).card :=
    Finset.one_lt_card.mpr
      ⟨s, List.mem_toFinset.mpr hmem, s0, List.mem_toFinset.mpr hmem0, hne⟩
  have hle := List.toFinset_card_le
    (spans.filter fun s => decide (s.epoch = some e))
  rw [← List.countP_eq_length_filter] at hle
  omega

theorem countP_eq_one_of_nodup_mem [DecidableEq α] {l : List α} (hn : l.Nodup)
    {e : α} (he : e ∈ l) : (l.countP fun a => decide (a = e)) = 1 := by
  induction l with
  | nil => simp at he
  | cons a l ih =>
      rw [List.nodup_cons] at hn
      rw [List.countP_cons]
      rcases List.mem_cons.mp he with rfl | he2
      · have h0 : (l.countP fun b => decide (b = e)) = 0 := by
          rw [List.countP_eq_zero]
          intro b hb
          simp only [decide_eq_true_eq]
          rintro rfl
          exact hn.1 hb
        rw [h0]
        simp
      · rw [ih hn.2 he2]
        have hae : ¬a = e := by
          rintro rfl
          exact hn.1 he2
        simp [hae]

theorem sweep_sum (ia : Store) (spans : List DataSpan)
    (hwf : ∀ s ∈ spans, s.start < s.stop) (e : Epoch) (s0 : DataSpan)
    (hs0 : s0 ∈ spans) (hse0 : s0.epoch = some e)
    (huniq : spans.countP (fun s => decide (s.epoch = some e)) = 1) :
    ∀ (todo done : List StateChange) (lastPos : Option Pos)
      (ce : List (Epoch × Int)) (ca : List (String × Int)),
      SweepCtx spans todo done lastPos →
      AMap ce (cntOf (fun x => x.epoch) done) →
      AMap ca (cntOf (fun x => x.artifact) done) →
      ∀ out, sweepAux ia false todo lastPos ce ca = .ok out →
        sumFor e out = sumTarget s0 lastPos := by
  intro todo
  induction todo with
  | nil =>
      intro done lastPos ce ca ctx hce hca out hok
      rw [sweepAux_nil] at hok
      have hout0 : out = [] := by
        by_cases hcc : ce = [] ∧ ca = []
        · rw [if_pos hcc] at hok
          exact (Except.ok.inj hok).symm
        · rw [if_neg hcc] at hok
          cases hok
      subst hout0
      rw [sumFor_nil]
      have hstop : stopEv s0 ∈ done := by
        have hmem := ctx.perm.mem_iff.mpr (stopEv_mem hs0)
        simpa using hmem
      cases lastPos with
      | some l =>
          have h1 : s0.stop ≤ l := ctx.done_le _ hstop l rfl
          simp only [sumTarget]
          rw [if_pos h1]
      | none =>
          rw [ctx.done_nil rfl] at hstop
          simp at hstop
  | cons ev rest ih =>
      intro done lastPos ce ca ctx hce hca out hok
      have hev_mem : ev ∈ stateChanges spans :=
        ctx.perm.mem_iff.mp (List.mem_append.mpr (Or.inr (List.mem_cons_self _ _)))
      have hch := change_of_mem hev_mem
      obtain ⟨ce', hceq, hce'⟩ := bump_step (fun x => x.epoch) hce hch
        fun k hk hm => cnt_pos_of_stop_head (fun x => x.epoch) (fun s => s.epoch)
          (fun s => ⟨rfl, rfl⟩) hwf ctx hk hm
      obtain ⟨ca', hcaq, hca'⟩ := bump_step (fun x => x.artifact) hca hch
        fun k hk hm => cnt_pos_of_stop_head (fun x => x.artifact)
          (fun s => s.artifact) (fun s => ⟨rfl, rfl⟩) hwf ctx hk hm
      have hrest_ge : ∀ x ∈ rest, ev.position ≤ x.position :=
        (List.sorted_cons.mp ctx.sorted).1
      have ctx' : SweepCtx spans rest (done ++ [ev]) (some ev.position) := by
        refine ⟨?_, (List.sorted_cons.mp ctx.sorted).2, ?_,
          fun h => Option.noConfusion h, ?_⟩
        · rw [List.append_assoc, List.singleton_append]
          exact ctx.perm
        · intro x hx l' hl'
          obtain rfl : ev.position = l' := Option.some.inj hl'
          rcases List.mem_append.mp hx with hx | hx
          · cases lastPos with
            | none =>
                rw [ctx.done_nil rfl] at hx
                simp at hx
            | some l =>
                exact le_trans (ctx.done_le x hx l rfl)
                  (ctx.todo_ge ev (List.mem_cons_self _ _) l rfl)
          · rcases List.mem_singleton.mp hx with rfl
            exact le_rfl
        · intro x hx l' hl'
          obtain rfl : ev.position = l' := Option.some.inj hl'
          exact hrest_ge x hx
      simp only [sweepAux, hceq, hcaq] at hok
      rcases hrec : sweepAux ia false rest (some ev.position) ce' ca' with msg | out2
      · rw [hrec] at hok
        simp at hok
      · rw [hrec] at hok
        simp only [Except.ok.injEq] at hok
        have ihsum := ih (done ++ [ev]) (some ev.position) ce' ca' ctx' hce' hca'
          out2 hrec
        rw [← hok, sumFor_append, ihsum]
        cases lastPos with
        | none =>
            rw [emitAt_none, sumFor_nil, zero_add]
            refine (sumTarget_init ?_ (hwf s0 hs0)).symm
            rcases ctx.event_split rfl (startEv_mem hs0) with h | h
            · rw [ctx.done_nil rfl] at h
              simp at h
            · exact h
        | some l =>
            have hlp0 : l ≤ ev.position :=
              ctx.todo_ge ev (List.mem_cons_self _ _) l rfl
            by_cases hcond : ev.position ≠ l ∧ ce ≠ []
            · have hlp : l < ev.position := lt_of_le_of_ne hlp0 (Ne.symm hcond.1)
              rw [emitAt_emit ia false ce ca hcond]
              have hblock : sumFor e (emitSub ia false l ev.position ce ca) =
                  if e ∈ ce.map Prod.fst
                  then tickOf ev.position - tickOf l else 0 := by
                have hun : emitSub ia false l ev.position ce ca =
                    (List.insertionSort eLe (ce.map Prod.fst)).map fun e' =>
                      ⟨l, ev.position, [e'],
                        (ca.map Prod.fst).toFinset ∪ (sget ia e'.id).toFinset⟩ := by
                  simp [emitSub]
                rw [hun, sumFor_map_singleton]
                rw [List.Perm.countP_eq _ (List.perm_insertionSort eLe _)]
                by_cases hkey : e ∈ ce.map Prod.fst
                · rw [if_pos hkey, countP_eq_one_of_nodup_mem hce.nodup hkey]
                  ring
                · rw [if_neg hkey]
                  have h0 : ((ce.map Prod.fst).countP fun e' =>
                      decide (e' = e)) = 0 := by
                    rw [List.countP_eq_zero]
                    intro b hb
                    simp only [decide_eq_true_eq]
                    rintro rfl
                    exact hkey hb
                  rw [h0]
                  ring
              by_cases hkey : e ∈ ce.map Prod.fst
              · rw [hblock, if_pos hkey]
                obtain ⟨s, hs, hseS, hsl, hsp⟩ :=
                  (cnt_pos_iff (fun x => x.epoch) (fun s => s.epoch)
                    (fun s => ⟨rfl, rfl⟩) hwf ctx hlp e).mp
                    ((hce.mem_keys e).mp hkey)
                obtain rfl : s = s0 := unique_span_of_countP huniq hs0 hse0 hs hseS
                exact (sumTarget_step hlp hsl hsp).symm
              · rw [hblock, if_neg hkey, zero_add]
                refine (sumTarget_stable hlp0 (hwf s0 hs0)
                  (ctx.endpoint_split rfl hs0).1
                  (ctx.endpoint_split rfl hs0).2 ?_).symm
                rintro ⟨hno1, hno2⟩
                exact hkey ((hce.mem_keys e).mpr
                  ((cnt_pos_iff (fun x => x.epoch) (fun s => s.epoch)
                    (fun s => ⟨rfl, rfl⟩) hwf ctx hlp e).mpr
                    ⟨s0, hs0, hse0, hno1, hno2⟩))
            · rw [emitAt_skip ia false ce ca hcond, sumFor_nil, zero_add]
              by_cases hpl : ev.position = l
              · rw [hpl]
              · have hlp : l < ev.position := lt_of_le_of_ne hlp0 (Ne.symm hpl)
                refine (sumTarget_stable hlp0 (hwf s0 hs0)
                  (ctx.endpoint_split rfl hs0).1
                  (ctx.endpoint_split rfl hs0).2 ?_).symm
                rintro ⟨hno1, hno2⟩
                have hkey := (hce.mem_keys e).mpr
                  ((cnt_pos_iff (fun x => x.epoch) (fun s => s.epoch)
                    (fun s => ⟨rfl, rfl⟩) hwf ctx hlp e).mpr
                    ⟨s0, hs0, hse0, hno1, hno2⟩)
                rcases not_and_or.mp hcond with hpl2 | hce0
                · exact hpl2 hpl
                · push_neg at hce0
                  rw [hce0] at hkey
                  simp at hkey

/-! ## Top-level wrappers for `epoch_subspans` -/

theorem initial_ctx (spans : List DataSpan) :
    SweepCtx spans (List.insertionSort scLe (stateChanges spans)) [] none := by
  refine ⟨?_, List.sorted_insertionSort scLe _, ?_, fun _ => rfl, ?_⟩
  · simpa using List.perm_insertionSort scLe (stateChanges spans)
  · intro ev hev
    simp at hev
  · intro ev _ l hl
    exact Option.noConfusion hl

theorem initial_amap [DecidableEq κ] (selEv : StateChange → Option κ) :
    AMap ([] : List (κ × Int)) (cntOf selEv []) := by
  refine AMap.nil.congr fun a => ?_
  simp [cntOf]

theorem epoch_subspans_spec (ia : Store) (spans : List DataSpan) (oc : Bool)
    (hwf : ∀ s ∈ spans, s.start < s.stop) :
    ∃ out, epoch_subspans ia spans oc = .ok out ∧
      List.Pairwise subR out ∧
      (oc = true → List.Pairwise subD out) ∧
      (∀ q, covers out q ↔ ∃ s ∈ spans, s.epoch ≠ none ∧ spanCovers s q) ∧
      ∀ sub ∈ out, sub.start < sub.stop ∧ sub.epochs ≠ [] ∧
        ∀ e ∈ sub.epochs, ∃ s ∈ spans, s.epoch = some e := by
  obtain ⟨out, hok, hprops, hR, hD, hcov⟩ :=
    sweep_main ia oc spans hwf (List.insertionSort scLe (stateChanges spans))
      [] none [] [] (initial_ctx spans) (initial_amap _) (initial_amap _)
  refine ⟨out, hok, hR, hD, ?_, ?_⟩
  · intro q
    rw [hcov q]
    constructor
    · rintro ⟨-, hE⟩
      exact hE
    · intro hE
      exact ⟨fun l hl => Option.noConfusion hl, hE⟩
  · intro sub hsub
    obtain ⟨-, h2, h3, h4⟩ := hprops sub hsub
    exact ⟨h2, h3, h4⟩

theorem emitSub_false_sorted (ia : Store) (l p : Pos)
    (ce : List (Epoch × Int)) (ca : List (String × Int)) :
    List.Pairwise (fun a b : DataSubSpan =>
        ∀ e1 ∈ a.epochs, ∀ e2 ∈ b.epochs, e1.start_tick ≤ e2.start_tick)
      (emitSub ia false l p ce ca) := by
  have hs : List.Sorted eLe (List.insertionSort eLe (ce.map Prod.fst)) :=
    List.sorted_insertionSort eLe _
  have hun : emitSub ia false l p ce ca =
      (List.insertionSort eLe (ce.map Prod.fst)).map fun e' =>
        ⟨l, p, [e'], (ca.map Prod.fst).toFinset ∪ (sget ia e'.id).toFinset⟩ := by
    simp [emitSub]
  rw [hun, List.pairwise_map]
  refine hs.imp_of_mem ?_
  intro a b _ _ hab
  intro e1 he1 e2 he2
  rcases List.mem_singleton.mp he1 with rfl
  rcases List.mem_singleton.mp he2 with rfl
  exact hab

theorem epoch_subspans_sum (ia : Store) (spans : List DataSpan)
    (hwf : ∀ s ∈ spans, s.start < s.stop) (e : Epoch) (s0 : DataSpan)
    (hs0 : s0 ∈ spans) (hse0 : s0.epoch = some e)
    (huniq : spans.countP (fun s => decide (s.epoch = some e)) = 1)
    (out : List DataSubSpan) (hok : epoch_subspans ia spans false = .ok out) :
    sumFor e out = tickOf s0.stop - tickOf s0.start :=
  sweep_sum ia spans hwf e s0 hs0 hse0 huniq
    (List.insertionSort scLe (stateChanges spans)) [] none [] []
    (initial_ctx spans) (initial_amap _) (initial_amap _) out hok

/-! ## Claim theorems -/

/-- Claim C1, counterexample.  The claim as stated fails twice on the code:
(i) an input consisting of one artifact span `[0,5)` and no epoch span
produces no subspans at all (the sweep emits only where the live epoch set is
non-empty, rerp.py:642), so the union of the subspans is empty while the
union of the input epoch and artifact intervals is not; (ii) with
`overlap_correction=false` the two overlapping epochs `[0,10)` and `[5,15)`
produce two distinct subspans over the same interval `[5,10)` (one private
copy per epoch, rerp.py:650-658), which are not disjoint. -/
theorem C1_counterexample :
    epoch_subspans ia0 [spanArt] true = .ok [] ∧
    spanCovers spanArt (pos 0 0) ∧
    epoch_subspans ia0 spansAB false =
      .ok [⟨pos 0 0, pos 0 5, [eA], ∅⟩, ⟨pos 0 5, pos 0 10, [eA], ∅⟩,
           ⟨pos 0 5, pos 0 10, [eB], ∅⟩, ⟨pos 0 10, pos 0 15, [eB], ∅⟩] ∧
    (⟨pos 0 5, pos 0 10, [eA], ∅⟩ : DataSubSpan) ≠
      ⟨pos 0 5, pos 0 10, [eB], ∅⟩ ∧
    inSub ⟨pos 0 5, pos 0 10, [eA], ∅⟩ (pos 0 5) ∧
    inSub ⟨pos 0 5, pos 0 10, [eB], ∅⟩ (pos 0 5) := by
  refine ⟨by decide, by decide, by decide, by decide, by decide, by decide⟩

/-- Claim C1 (amended): for every input list of tagged spans in which each
interval has start < stop, and for either value of `overlap_correction`, the
subspans produced by `_epoch_subspans` are pairwise disjoint or carry exactly
the same interval (with `overlap_correction=true` they are pairwise
disjoint), and the union of their tick intervals equals the union of the
input *epoch* intervals — an artifact interval contributes to the union only
where it overlaps some epoch interval, because the sweep emits nothing while
no epoch is live. -/
theorem C1_subspans_partition (ia : Store) (spans : List DataSpan) (oc : Bool)
    (hwf : ∀ s ∈ spans, s.start < s.stop) :
    ∃ out, epoch_subspans ia spans oc = .ok out ∧
      List.Pairwise subR out ∧
      (oc = true → List.Pairwise subD out) ∧
      ∀ q, covers out q ↔ ∃ s ∈ spans, s.epoch ≠ none ∧ spanCovers s q := by
  obtain ⟨out, hok, hR, hD, hcov, -⟩ := epoch_subspans_spec ia spans oc hwf
  exact ⟨out, hok, hR, hD, hcov⟩

/-- Claim C1 witness: the amended theorem applied to the two-epoch scenario. -/
theorem C1_subspans_partition_witness :
    (∀ s ∈ spansAB, s.start < s.stop) ∧
      ∃ out, epoch_subspans ia0 spansAB true = .ok out ∧
        List.Pairwise subR out ∧
        (true = true → List.Pairwise subD out) ∧
        ∀ q, covers out q ↔ ∃ s ∈ spansAB, s.epoch ≠ none ∧ spanCovers s q :=
  ⟨by decide, C1_subspans_partition ia0 spansAB true (by decide)⟩

/-- Claim C2: with `overlap_correction=false`, for an epoch tagging exactly
one well-formed span of the input, the tick lengths of the produced subspans
naming that epoch sum to exactly that epoch's window length (no gaps, no
double counting), and at each emission position the per-epoch subspans come
out sorted by the epoch's `start_tick` (rerp.py:650-658). -/
theorem C2_private_copy_coverage (ia : Store) (spans : List DataSpan)
    (hwf : ∀ s ∈ spans, s.start < s.stop) (e : Epoch) (s0 : DataSpan)
    (hs0 : s0 ∈ spans) (hse0 : s0.epoch = some e)
    (huniq : spans.countP (fun s => decide (s.epoch = some e)) = 1)
    (hticks : e.ticks = tickOf s0.stop - tickOf s0.start)
    (out : List DataSubSpan) (hok : epoch_subspans ia spans false = .ok out) :
    sumFor e out = e.ticks ∧
    ∀ (l p : Pos) (ce : List (Epoch × Int)) (ca : List (String × Int)),
      List.Pairwise (fun a b : DataSubSpan =>
          ∀ e1 ∈ a.epochs, ∀ e2 ∈ b.epochs, e1.start_tick ≤ e2.start_tick)
        (emitSub ia false l p ce ca) := by
  constructor
  · rw [epoch_subspans_sum ia spans hwf e s0 hs0 hse0 huniq out hok, hticks]
  · intro l p ce ca
    exact emitSub_false_sorted ia l p ce ca

/-- Claim C2 witness: epoch A of the two-epoch scenario gets its full ten
ticks of private coverage. -/
theorem C2_private_copy_coverage_witness :
    ((∀ s ∈ spansAB, s.start < s.stop) ∧
      spanA ∈ spansAB ∧ spanA.epoch = some eA ∧
      spansAB.countP (fun s => decide (s.epoch = some eA)) = 1 ∧
      eA.ticks = tickOf spanA.stop - tickOf spanA.start ∧
      epoch_subspans ia0 spansAB false = .ok outABfalse) ∧
    (sumFor eA outABfalse = eA.ticks ∧
      ∀ (l p : Pos) (ce : List (Epoch × Int)) (ca : List (String × Int)),
        List.Pairwise (fun a b : DataSubSpan =>
            ∀ e1 ∈ a.epochs, ∀ e2 ∈ b.epochs, e1.start_tick ≤ e2.start_tick)
          (emitSub ia0 false l p ce ca)) :=
  ⟨⟨by decide, by decide, by decide, by decide, by decide, by decide⟩,
    C2_private_copy_coverage ia0 spansAB (by decide) eA spanA (by decide)
      (by decide) (by decide) (by decide) outABfalse (by decide)⟩

/-- Claim C3: two epochs with tick windows `[0,10)` and `[5,15)` on the same
recording, `overlap_correction=true`, no artifact spans: `_epoch_subspans`
yields exactly three subspans `[0,5)`, `[5,10)`, `[10,15)` whose epoch sets
are {A}, {A,B}, {B} and whose artifact sets are empty. -/
theorem C3_overlap_scenario :
    epoch_subspans ia0 spansAB true =
      .ok [⟨pos 0 0, pos 0 5, [eA], ∅⟩, ⟨pos 0 5, pos 0 10, [eA, eB], ∅⟩,
           ⟨pos 0 10, pos 0 15, [eB], ∅⟩] ∧
    [eA].toFinset = {eA} ∧ ([eA, eB].toFinset : Finset Epoch) = {eA, eB} ∧
    [eB].toFinset = {eB} := by
  refine ⟨by decide, by decide, by decide, by decide⟩

/-- Claim C8: for every input span list in which each span has start strictly
before stop, every boundary event's `-1` finds its key live (no KeyError) and
after the sweep both live-count maps are empty, so the closing
`assert current_epochs == current_artifacts == {}` (rerp.py:668) never
fails and the sweep returns its subspans. -/
theorem C8_sweep_assertion_holds (ia : Store) (spans : List DataSpan)
    (oc : Bool) (hwf : ∀ s ∈ spans, s.start < s.stop) :
    ∃ out, epoch_subspans ia spans oc = .ok out := by
  obtain ⟨out, hok, -, -, -, -⟩ := epoch_subspans_spec ia spans oc hwf
  exact ⟨out, hok⟩

/-- Claim C8 witness: the mixed epoch/artifact scenario sweeps to a clean
final state. -/
theorem C8_sweep_assertion_holds_witness :
    (∀ s ∈ spanArt :: spansAB, s.start < s.stop) ∧
      ∃ out, epoch_subspans ia0 (spanArt :: spansAB) true = .ok out :=
  ⟨by decide, C8_sweep_assertion_holds ia0 (spanArt :: spansAB) true (by decide)⟩

/-! ## Heap and flood-fill lemmas (`_propagate_all_or_nothing`) -/

theorem sget_sset_self (ia : Store) (k : Nat) (v : List String) :
    sget (sset ia k v) k = v := by
  induction ia with
  | nil => simp [sset, sget]
  | cons q rest ih =>
      obtain ⟨j, w⟩ := q
      by_cases h : j = k
      · subst h
        simp [sset, sget]
      · simp [sset, sget, h, ih]

theorem sget_sset_other (ia : Store) (k : Nat) (v : List String) (m : Nat)
    (h : m ≠ k) : sget (sset ia k v) m = sget ia m := by
  induction ia with
  | nil =>
      simp [sset, sget]
      intro hk
      exact absurd hk.symm h
  | cons q rest ih =>
      obtain ⟨j, w⟩ := q
      by_cases hj : j = k
      · subst hj
        have hjm : ¬ j = m := fun hh => h hh.symm
        simp [sset, sget, hjm]
      · simp only [sset, if_neg hj, sget]
        by_cases hjm : j = m
        · rw [if_pos hjm, if_pos hjm]
        · rw [if_neg hjm, if_neg hjm, ih]

theorem mem_intrinsicsOf (ia : Store) (es : List Epoch) (x : String) :
    x ∈ intrinsicsOf ia es ↔ ∃ e ∈ es, x ∈ sget ia e.id := by
  induction es with
  | nil => simp [intrinsicsOf]
  | cons e rest ih =>
      simp only [intrinsicsOf, List.foldr_cons, Finset.mem_union,
        List.mem_toFinset, List.mem_cons]
      rw [show rest.foldr (fun e s => (sget ia e.id).toFinset ∪ s) ∅ =
        intrinsicsOf ia rest from rfl, ih]
      constructor
      · rintro (hx | ⟨e', he', hx⟩)
        · exact ⟨e, Or.inl rfl, hx⟩
        · exact ⟨e', Or.inr he', hx⟩
      · rintro ⟨e', rfl | he', hx⟩
        · exact Or.inl hx
        · exact Or.inr ⟨e', he', hx⟩

theorem intrinsicsOf_eq_empty (ia : Store) (es : List Epoch) :
    intrinsicsOf ia es = ∅ ↔ ∀ e ∈ es, sget ia e.id = [] := by
  rw [Finset.eq_empty_iff_forall_not_mem]
  constructor
  · intro h e he
    rcases hne : sget ia e.id with _ | ⟨y, ys⟩
    · rfl
    · exact absurd ((mem_intrinsicsOf ia es y).mpr
        ⟨e, he, by rw [hne]; exact List.mem_cons_self y ys⟩) (h y)
  · intro h x hx
    obtain ⟨e, he, hxe⟩ := (mem_intrinsicsOf ia es x).mp hx
    rw [h e he] at hxe
    exact absurd hxe (List.not_mem_nil x)

theorem floodLoop_nil (g : Nat → Finset Nat) (fuel : Nat) (ia : Store) :
    floodLoop g fuel [] ia = .ok ia := by
  cases fuel <;> rfl

theorem floodLoop_assert (g : Nat → Finset Nat) (fuel : Nat) (e : Nat)
    (rest : List Nat) (ia : Store) (h : sget ia e ≠ []) :
    floodLoop g (fuel + 1) (e :: rest) ia = .error "AssertionError" := by
  simp only [floodLoop]
  rw [if_pos h]

theorem floodLoop_cons (g : Nat → Finset Nat) (fuel : Nat) (e : Nat)
    (rest : List Nat) (ia : Store) (h : sget ia e = []) :
    floodLoop g (fuel + 1) (e :: rest) ia =
      floodLoop g fuel
        (rest ++ ((g e).sort (· ≤ ·)).filter fun n =>
          decide (sget (sset ia e (sget ia e ++ ["_ALL_OR_NOTHING"])) n = [] ∧
            n ∉ rest))
        (sset ia e (sget ia e ++ ["_ALL_OR_NOTHING"])) := by
  simp only [floodLoop]
  rw [if_neg (not_not_intro h)]

theorem floodLoop_mono (g : Nat → Finset Nat) : ∀ (fuel : Nat)
    (pend : List Nat) (ia ia2 : Store),
    floodLoop g fuel pend ia = .ok ia2 →
    ∀ n, sget ia2 n = sget ia n ∨
      (sget ia n = [] ∧ sget ia2 n = ["_ALL_OR_NOTHING"]) := by
  intro fuel
  induction fuel with
  | zero =>
      intro pend ia ia2 h n
      match pend with
      | [] =>
          rw [floodLoop_nil] at h
          cases h
          exact Or.inl rfl
      | e :: rest => exact absurd h (by simp [floodLoop])
  | succ fuel ih =>
      intro pend ia ia2 h n
      match pend with
      | [] =>
          rw [floodLoop_nil] at h
          cases h
          exact Or.inl rfl
      | e :: rest =>
          by_cases he : sget ia e = []
          · rw [floodLoop_cons g fuel e rest ia he] at h
            have hstep := ih _ _ _ h n
            by_cases hne : n = e
            · subst hne
              have hv : sget (sset ia n (sget ia n ++ ["_ALL_OR_NOTHING"])) n =
                  ["_ALL_OR_NOTHING"] := by
                rw [sget_sset_self, he]
                rfl
              rcases hstep with h1 | ⟨h1, h2⟩
              · exact Or.inr ⟨he, by rw [h1, hv]⟩
              · exact Or.inr ⟨he, h2⟩
            · rw [sget_sset_other ia e _ n hne] at hstep
              exact hstep
          · rw [floodLoop_assert g fuel e rest ia he] at h
            exact absurd h (by simp)

theorem floodLoop_grows (g : Nat → Finset Nat) (fuel : Nat)
    (pend : List Nat) (ia ia2 : Store)
    (h : floodLoop g fuel pend ia = .ok ia2) :
    ∀ n, sget ia n ≠ [] → sget ia2 n ≠ [] := by
  intro n hn
  rcases floodLoop_mono g fuel pend ia ia2 h n with h1 | ⟨h1, -⟩
  · rw [h1]; exact hn
  · exact absurd h1 hn

theorem floodLoop_tainted (g : Nat → Finset Nat) : ∀ (fuel : Nat)
    (pend : List Nat) (ia ia2 : Store),
    floodLoop g fuel pend ia = .ok ia2 →
    ∀ n ∈ pend, sget ia2 n ≠ [] := by
  intro fuel
  induction fuel with
  | zero =>
      intro pend ia ia2 h n hn
      match pend with
      | [] => exact absurd hn (List.not_mem_nil n)
      | e :: rest => exact absurd h (by simp [floodLoop])
  | succ fuel ih =>
      intro pend ia ia2 h n hn
      match pend with
      | [] => exact absurd hn (List.not_mem_nil n)
      | e :: rest =>
          by_cases he : sget ia e = []
          · rw [floodLoop_cons g fuel e rest ia he] at h
            rcases List.mem_cons.mp hn with rfl | hn'
            · refine floodLoop_grows g fuel _ _ _ h n ?_
              rw [sget_sset_self, he]
              simp
            · exact ih _ _ _ h n (List.mem_append_left _ hn')
          · rw [floodLoop_assert g fuel e rest ia he] at h
            exact absurd h (by simp)

theorem floodLoop_provenance (g : Nat → Finset Nat) (P : Nat → Prop)
    (hg : ∀ e m, m ∈ g e → P m) : ∀ (fuel : Nat) (pend : List Nat)
    (ia ia2 : Store), floodLoop g fuel pend ia = .ok ia2 →
    (∀ n ∈ pend, P n) →
    ∀ n, sget ia n = [] → sget ia2 n ≠ [] → P n := by
  intro fuel
  induction fuel with
  | zero =>
      intro pend ia ia2 h hpend n h0 h2
      match pend with
      | [] =>
          rw [floodLoop_nil] at h
          cases h
          exact absurd h0 h2
      | e :: rest => exact absurd h (by simp [floodLoop])
  | succ fuel ih =>
      intro pend ia ia2 h hpend n h0 h2
      match pend with
      | [] =>
          rw [floodLoop_nil] at h
          cases h
          exact absurd h0 h2
      | e :: rest =>
          by_cases he : sget ia e = []
          · rw [floodLoop_cons g fuel e rest ia he] at h
            by_cases hne : n = e
            · subst hne
              exact hpend n (List.mem_cons_self n rest)
            · refine ih _ _ _ h ?_ n ?_ h2
              · intro m hm
                rcases List.mem_append.mp hm with hm1 | hm2
                · exact hpend m (List.mem_cons_of_mem e hm1)
                · have := List.mem_filter.mp hm2
                  exact hg e m ((Finset.mem_sort _).mp this.1)
              · rw [sget_sset_other ia e _ n hne]
                exact h0
          · rw [floodLoop_assert g fuel e rest ia he] at h
            exact absurd h (by simp)

theorem floodLoop_closure (g : Nat → Finset Nat) : ∀ (fuel : Nat)
    (pend : List Nat) (ia ia2 : Store),
    floodLoop g fuel pend ia = .ok ia2 →
    ∀ n, sget ia n = [] → sget ia2 n ≠ [] →
    ∀ m ∈ g n, sget ia2 m ≠ [] := by
  intro fuel
  induction fuel with
  | zero =>
      intro pend ia ia2 h n h0 h2
      match pend with
      | [] =>
          rw [floodLoop_nil] at h
          cases h
          exact absurd h0 h2
      | e :: rest => exact absurd h (by simp [floodLoop])
  | succ fuel ih =>
      intro pend ia ia2 h n h0 h2 m hm
      match pend with
      | [] =>
          rw [floodLoop_nil] at h
          cases h
          exact absurd h0 h2
      | e :: rest =>
          by_cases he : sget ia e = []
          · rw [floodLoop_cons g fuel e rest ia he] at h
            by_cases hne : n = e
            · subst hne
              by_cases hm' : sget (sset ia n (sget ia n ++ ["_ALL_OR_NOTHING"])) m = []
              · by_cases hmr : m ∈ rest
                · exact floodLoop_tainted g fuel _ _ _ h m
                    (List.mem_append_left _ hmr)
                · refine floodLoop_tainted g fuel _ _ _ h m
                    (List.mem_append_right _ ?_)
                  refine List.mem_filter.mpr ⟨(Finset.mem_sort _).mpr hm, ?_⟩
                  exact decide_eq_true ⟨hm', hmr⟩
              · exact floodLoop_grows g fuel _ _ _ h m hm'
            · refine ih _ _ _ h n ?_ h2 m hm
              rw [sget_sset_other ia e _ n hne]
              exact h0
          · rw [floodLoop_assert g fuel e rest ia he] at h
            exact absurd h (by simp)

theorem floodLoop_ok (g : Nat → Finset Nat) (allIds : Finset Nat)
    (hg : ∀ e, g e ⊆ allIds) : ∀ (fuel : Nat) (pend : List Nat) (ia : Store),
    pend.Nodup → (∀ n ∈ pend, sget ia n = []) → (∀ n ∈ pend, n ∈ allIds) →
    (allIds.filter fun n => sget ia n = []).card ≤ fuel →
    ∃ ia2, floodLoop g fuel pend ia = .ok ia2 := by
  intro fuel
  induction fuel with
  | zero =>
      intro pend ia hnd hemp hmem hcard
      match pend with
      | [] => exact ⟨ia, floodLoop_nil g 0 ia⟩
      | e :: rest =>
          exfalso
          have he : e ∈ allIds.filter fun n => sget ia n = [] :=
            Finset.mem_filter.mpr ⟨hmem e (List.mem_cons_self e rest),
              hemp e (List.mem_cons_self e rest)⟩
          have := Finset.card_pos.mpr ⟨e, he⟩
          omega
  | succ fuel ih =>
      intro pend ia hnd hemp hmem hcard
      match pend with
      | [] => exact ⟨ia, floodLoop_nil g _ ia⟩
      | e :: rest =>
          have he0 : sget ia e = [] := hemp e (List.mem_cons_self e rest)
          rw [floodLoop_cons g fuel e rest ia he0]
          have hiaself : sget (sset ia e (sget ia e ++ ["_ALL_OR_NOTHING"])) e =
              ["_ALL_OR_NOTHING"] := by
            rw [sget_sset_self, he0]
            rfl
          have hrest : ∀ n ∈ rest,
              sget (sset ia e (sget ia e ++ ["_ALL_OR_NOTHING"])) n = sget ia n := by
            intro n hn
            have hne : n ≠ e := fun hh =>
              (List.nodup_cons.mp hnd).1 (hh ▸ hn)
            exact sget_sset_other ia e _ n hne
          refine ih _ _ ?_ ?_ ?_ ?_
          · refine List.nodup_append.mpr ⟨(List.nodup_cons.mp hnd).2,
              ((g e).sort_nodup _).filter _, ?_⟩
            intro x hx hx'
            have := (of_decide_eq_true (List.mem_filter.mp hx').2).2
            exact this hx
          · intro n hn
            rcases List.mem_append.mp hn with hn1 | hn2
            · rw [hrest n hn1]
              exact hemp n (List.mem_cons_of_mem e hn1)
            · exact (of_decide_eq_true (List.mem_filter.mp hn2).2).1
          · intro n hn
            rcases List.mem_append.mp hn with hn1 | hn2
            · exact hmem n (List.mem_cons_of_mem e hn1)
            · exact hg e ((Finset.mem_sort _).mp (List.mem_filter.mp hn2).1)
          · have hfe : (allIds.filter fun n =>
                sget (sset ia e (sget ia e ++ ["_ALL_OR_NOTHING"])) n = []) =
                (allIds.filter fun n => sget ia n = []).erase e := by
              ext n
              rw [Finset.mem_filter, Finset.mem_erase, Finset.mem_filter]
              by_cases hne : n = e
              · subst hne
                rw [hiaself]
                simp
              · rw [sget_sset_other ia e _ n hne]
                constructor
                · rintro ⟨h1, h2⟩
                  exact ⟨hne, h1, h2⟩
                · rintro ⟨-, h1, h2⟩
                  exact ⟨h1, h2⟩
            rw [hfe, Finset.card_erase_of_mem
              (Finset.mem_filter.mpr ⟨hmem e (List.mem_cons_self e rest), he0⟩)]
            omega

theorem epochIds_cons (s0 : DataSpan) (rest : List DataSpan) :
    epochIds (s0 :: rest) = match s0.epoch with
      | some e0 => insert e0.id (epochIds rest)
      | none => epochIds rest := rfl

theorem epochIds_mem : ∀ (spans : List DataSpan) (s : DataSpan) (e : Epoch),
    s ∈ spans → s.epoch = some e → e.id ∈ epochIds spans := by
  intro spans
  induction spans with
  | nil =>
      intro s e hs _
      exact absurd hs (List.not_mem_nil s)
  | cons s0 rest ih =>
      intro s e hs hse
      rw [epochIds_cons]
      rcases List.mem_cons.mp hs with rfl | hs'
      · rw [hse]
        exact Finset.mem_insert_self _ _
      · cases h0 : s0.epoch with
        | none => exact ih s e hs' hse
        | some e0 => exact Finset.mem_insert_of_mem (ih s e hs' hse)

/-! ## Pending-set lemmas -/

theorem addPending_cons (ia : Store) (pend : List Nat) (e : Epoch)
    (rel : List Epoch) :
    addPending ia pend (e :: rel) =
      addPending ia
        (if sget ia e.id = [] ∧ e.id ∉ pend then pend ++ [e.id] else pend)
        rel := rfl

theorem addPending_subset (ia : Store) : ∀ (rel : List Epoch)
    (pend : List Nat), ∀ n ∈ pend, n ∈ addPending ia pend rel := by
  intro rel
  induction rel with
  | nil =>
      intro pend n hn
      exact hn
  | cons e rel ih =>
      intro pend n hn
      rw [addPending_cons]
      refine ih _ n ?_
      by_cases hc : sget ia e.id = [] ∧ e.id ∉ pend
      · rw [if_pos hc]
        exact List.mem_append_left _ hn
      · rw [if_neg hc]
        exact hn

theorem addPending_mem (ia : Store) : ∀ (rel : List Epoch) (pend : List Nat)
    (e : Epoch), e ∈ rel → sget ia e.id = [] →
    e.id ∈ addPending ia pend rel := by
  intro rel
  induction rel with
  | nil =>
      intro pend e he _
      exact absurd he (List.not_mem_nil e)
  | cons a rel ih =>
      intro pend e he h0
      rw [addPending_cons]
      rcases List.mem_cons.mp he with rfl | he'
      · by_cases hc : sget ia e.id = [] ∧ e.id ∉ pend
        · rw [if_pos hc]
          exact addPending_subset ia rel _ e.id
            (List.mem_append_right _ (List.mem_singleton.mpr rfl))
        · rw [if_neg hc]
          have hin : e.id ∈ pend := by
            by_contra hn
            exact hc ⟨h0, hn⟩
          exact addPending_subset ia rel _ e.id hin
      · exact ih _ e he' h0

theorem addPending_sound (ia : Store) : ∀ (rel : List Epoch) (pend : List Nat)
    (n : Nat), n ∈ addPending ia pend rel →
    n ∈ pend ∨ ∃ e ∈ rel, e.id = n ∧ sget ia e.id = [] := by
  intro rel
  induction rel with
  | nil =>
      intro pend n hn
      exact Or.inl hn
  | cons a rel ih =>
      intro pend n hn
      rw [addPending_cons] at hn
      rcases ih _ n hn with hp | ⟨e, he, hid, h0⟩
      · by_cases hc : sget ia a.id = [] ∧ a.id ∉ pend
        · rw [if_pos hc] at hp
          rcases List.mem_append.mp hp with h1 | h2
          · exact Or.inl h1
          · exact Or.inr ⟨a, List.mem_cons_self a rel,
              (List.mem_singleton.mp h2).symm, hc.1⟩
        · rw [if_neg hc] at hp
          exact Or.inl hp
      · exact Or.inr ⟨e, List.mem_cons_of_mem a he, hid, h0⟩

theorem addPending_nodup (ia : Store) : ∀ (rel : List Epoch)
    (pend : List Nat), pend.Nodup → (addPending ia pend rel).Nodup := by
  intro rel
  induction rel with
  | nil =>
      intro pend hnd
      exact hnd
  | cons a rel ih =>
      intro pend hnd
      rw [addPending_cons]
      refine ih _ ?_
      by_cases hc : sget ia a.id = [] ∧ a.id ∉ pend
      · rw [if_pos hc]
        refine List.nodup_append.mpr ⟨hnd, List.nodup_singleton _, ?_⟩
        intro x hx hx'
        rw [List.mem_singleton.mp hx'] at hx
        exact hc.2 hx
      · rw [if_neg hc]
        exact hnd

theorem addPending_id (ia : Store) : ∀ (rel : List Epoch) (pend : List Nat),
    (∀ e ∈ rel, sget ia e.id ≠ []) → addPending ia pend rel = pend := by
  intro rel
  induction rel with
  | nil =>
      intro pend _
      rfl
  | cons a rel ih =>
      intro pend h
      rw [addPending_cons,
        if_neg (fun hc => h a (List.mem_cons_self a rel) hc.1)]
      exact ih pend fun e he => h e (List.mem_cons_of_mem a he)

theorem buildPending_go_subset (ia : Store) : ∀ (subs : List DataSubSpan)
    (pend : List Nat), ∀ n ∈ pend,
    n ∈ subs.foldl (fun pend sub =>
        if sub.artifacts ≠ ∅ then addPending ia pend (relevantEpochs sub)
        else pend) pend := by
  intro subs
  induction subs with
  | nil =>
      intro pend n hn
      exact hn
  | cons s0 subs ih =>
      intro pend n hn
      rw [List.foldl_cons]
      refine ih _ n ?_
      by_cases hc : s0.artifacts ≠ ∅
      · rw [if_pos hc]
        exact addPending_subset ia _ pend n hn
      · rw [if_neg hc]
        exact hn

theorem buildPending_go_sound (ia : Store) : ∀ (subs : List DataSubSpan)
    (pend : List Nat) (n : Nat),
    n ∈ subs.foldl (fun pend sub =>
        if sub.artifacts ≠ ∅ then addPending ia pend (relevantEpochs sub)
        else pend) pend →
    n ∈ pend ∨ ∃ sub ∈ subs, sub.artifacts ≠ ∅ ∧
      ∃ e ∈ relevantEpochs sub, e.id = n ∧ sget ia e.id = [] := by
  intro subs
  induction subs with
  | nil =>
      intro pend n hn
      exact Or.inl hn
  | cons s0 subs ih =>
      intro pend n hn
      rw [List.foldl_cons] at hn
      rcases ih _ n hn with hp | ⟨sub, hsub, ha, hrest⟩
      · by_cases hc : s0.artifacts ≠ ∅
        · rw [if_pos hc] at hp
          rcases addPending_sound ia _ pend n hp with h1 | ⟨e, he, hid, h0⟩
          · exact Or.inl h1
          · exact Or.inr ⟨s0, List.mem_cons_self s0 subs, hc, e, he, hid, h0⟩
        · rw [if_neg hc] at hp
          exact Or.inl hp
      · exact Or.inr ⟨sub, List.mem_cons_of_mem s0 hsub, ha, hrest⟩

theorem buildPending_go_mem (ia : Store) : ∀ (subs : List DataSubSpan)
    (pend : List Nat) (sub : DataSubSpan) (e : Epoch), sub ∈ subs →
    sub.artifacts ≠ ∅ → e ∈ relevantEpochs sub → sget ia e.id = [] →
    e.id ∈ subs.foldl (fun pend sub =>
        if sub.artifacts ≠ ∅ then addPending ia pend (relevantEpochs sub)
        else pend) pend := by
  intro subs
  induction subs with
  | nil =>
      intro pend sub e hsub
      exact absurd hsub (List.not_mem_nil sub)
  | cons s0 subs ih =>
      intro pend sub e hsub ha he h0
      rw [List.foldl_cons]
      rcases List.mem_cons.mp hsub with rfl | hsub'
      · refine buildPending_go_subset ia subs _ e.id ?_
        rw [if_pos ha]
        exact addPending_mem ia _ pend e he h0
      · exact ih _ sub e hsub' ha he h0

theorem buildPending_go_nodup (ia : Store) : ∀ (subs : List DataSubSpan)
    (pend : List Nat), pend.Nodup →
    (subs.foldl (fun pend sub =>
        if sub.artifacts ≠ ∅ then addPending ia pend (relevantEpochs sub)
        else pend) pend).Nodup := by
  intro subs
  induction subs with
  | nil =>
      intro pend hnd
      exact hnd
  | cons s0 subs ih =>
      intro pend hnd
      rw [List.foldl_cons]
      refine ih _ ?_
      by_cases hc : s0.artifacts ≠ ∅
      · rw [if_pos hc]
        exact addPending_nodup ia _ pend hnd
      · rw [if_neg hc]
        exact hnd

theorem buildPending_sound (ia : Store) (subs : List DataSubSpan) (n : Nat)
    (hn : n ∈ buildPending ia subs) :
    ∃ sub ∈ subs, sub.artifacts ≠ ∅ ∧
      ∃ e ∈ relevantEpochs sub, e.id = n ∧ sget ia e.id = [] := by
  rcases buildPending_go_sound ia subs [] n hn with h0 | h1
  · exact absurd h0 (List.not_mem_nil n)
  · exact h1

theorem buildPending_mem (ia : Store) (subs : List DataSubSpan)
    (sub : DataSubSpan) (e : Epoch) (hsub : sub ∈ subs)
    (ha : sub.artifacts ≠ ∅) (he : e ∈ relevantEpochs sub)
    (h0 : sget ia e.id = []) : e.id ∈ buildPending ia subs :=
  buildPending_go_mem ia subs [] sub e hsub ha he h0

theorem buildPending_nodup (ia : Store) (subs : List DataSubSpan) :
    (buildPending ia subs).Nodup :=
  buildPending_go_nodup ia subs [] List.nodup_nil

theorem buildPending_eq_nil (ia : Store) (subs : List DataSubSpan)
    (h : ∀ sub ∈ subs, sub.artifacts ≠ ∅ →
      ∀ e ∈ relevantEpochs sub, sget ia e.id ≠ []) :
    buildPending ia subs = [] := by
  rcases hn : buildPending ia subs with _ | ⟨n, rest⟩
  · rfl
  · exfalso
    have hmem : n ∈ buildPending ia subs := by
      rw [hn]
      exact List.mem_cons_self n rest
    obtain ⟨sub, hsub, ha, e, he, hid, h0⟩ := buildPending_sound ia subs n hmem
    exact h sub hsub ha e he h0

/-! ## Overlap-graph lemmas -/

theorem pairs_inner_mono (a : Epoch) : ∀ (bs : List Epoch)
    (g : Nat → Finset Nat) (n m : Nat), m ∈ g n →
    m ∈ (bs.foldl (fun g b => if a.id = b.id then g
        else Function.update g a.id (insert b.id (g a.id))) g) n := by
  intro bs
  induction bs with
  | nil =>
      intro g n m hm
      exact hm
  | cons b bs ih =>
      intro g n m hm
      rw [List.foldl_cons]
      refine ih _ n m ?_
      by_cases hab : a.id = b.id
      · rw [if_pos hab]
        exact hm
      · rw [if_neg hab]
        by_cases hna : n = a.id
        · subst hna
          rw [Function.update_same]
          exact Finset.mem_insert_of_mem hm
        · rw [Function.update_noteq hna]
          exact hm

theorem pairs_inner_sound (a : Epoch) : ∀ (bs : List Epoch)
    (g : Nat → Finset Nat) (n m : Nat),
    m ∈ (bs.foldl (fun g b => if a.id = b.id then g
        else Function.update g a.id (insert b.id (g a.id))) g) n →
    m ∈ g n ∨ ∃ b ∈ bs, b.id = m := by
  intro bs
  induction bs with
  | nil =>
      intro g n m hm
      exact Or.inl hm
  | cons b bs ih =>
      intro g n m hm
      rw [List.foldl_cons] at hm
      rcases ih _ n m hm with h1 | ⟨b', hb', hid⟩
      · by_cases hab : a.id = b.id
        · rw [if_pos hab] at h1
          exact Or.inl h1
        · rw [if_neg hab] at h1
          by_cases hna : n = a.id
          · subst hna
            rw [Function.update_same] at h1
            rcases Finset.mem_insert.mp h1 with rfl | h2
            · exact Or.inr ⟨b, List.mem_cons_self b bs, rfl⟩
            · exact Or.inl h2
          · rw [Function.update_noteq hna] at h1
            exact Or.inl h1
      · exact Or.inr ⟨b', List.mem_cons_of_mem b hb', hid⟩

theorem pairs_inner_complete (a : Epoch) : ∀ (bs : List Epoch)
    (g : Nat → Finset Nat) (b : Epoch), b ∈ bs → a.id ≠ b.id →
    b.id ∈ (bs.foldl (fun g b => if a.id = b.id then g
        else Function.update g a.id (insert b.id (g a.id))) g) a.id := by
  intro bs
  induction bs with
  | nil =>
      intro g b hb
      exact absurd hb (List.not_mem_nil b)
  | cons b0 bs ih =>
      intro g b hb hne
      rw [List.foldl_cons]
      rcases List.mem_cons.mp hb with rfl | hb'
      · refine pairs_inner_mono a bs _ a.id b.id ?_
        rw [if_neg hne, Function.update_same]
        exact Finset.mem_insert_self _ _
      · exact ih _ b hb' hne

theorem pairs_outer_mono (rel : List Epoch) : ∀ (as' : List Epoch)
    (g : Nat → Finset Nat) (n m : Nat), m ∈ g n →
    m ∈ (as'.foldl (fun g a => rel.foldl (fun g b =>
        if a.id = b.id then g
        else Function.update g a.id (insert b.id (g a.id))) g) g) n := by
  intro as'
  induction as' with
  | nil =>
      intro g n m hm
      exact hm
  | cons a as' ih =>
      intro g n m hm
      rw [List.foldl_cons]
      exact ih _ n m (pairs_inner_mono a rel g n m hm)

theorem pairs_outer_sound (rel : List Epoch) : ∀ (as' : List Epoch)
    (g : Nat → Finset Nat) (n m : Nat),
    m ∈ (as'.foldl (fun g a => rel.foldl (fun g b =>
        if a.id = b.id then g
        else Function.update g a.id (insert b.id (g a.id))) g) g) n →
    m ∈ g n ∨ ∃ b ∈ rel, b.id = m := by
  intro as'
  induction as' with
  | nil =>
      intro g n m hm
      exact Or.inl hm
  | cons a as' ih =>
      intro g n m hm
      rw [List.foldl_cons] at hm
      rcases ih _ n m hm with h1 | h2
      · exact pairs_inner_sound a rel g n m h1
      · exact Or.inr h2

theorem pairs_outer_complete (rel : List Epoch) : ∀ (as' : List Epoch)
    (g : Nat → Finset Nat) (a b : Epoch), a ∈ as' → b ∈ rel → a.id ≠ b.id →
    b.id ∈ (as'.foldl (fun g a => rel.foldl (fun g b =>
        if a.id = b.id then g
        else Function.update g a.id (insert b.id (g a.id))) g) g) a.id := by
  intro as'
  induction as' with
  | nil =>
      intro g a b ha
      exact absurd ha (List.not_mem_nil a)
  | cons a0 as' ih =>
      intro g a b ha hb hne
      rw [List.foldl_cons]
      rcases List.mem_cons.mp ha with rfl | ha'
      · exact pairs_outer_mono rel as' _ a.id b.id
          (pairs_inner_complete a rel g b hb hne)
      · exact ih _ a b ha' hb hne

theorem addPairs_mono (g : Nat → Finset Nat) (rel : List Epoch) (n m : Nat)
    (hm : m ∈ g n) : m ∈ addPairs g rel n :=
  pairs_outer_mono rel rel g n m hm

theorem addPairs_sound (g : Nat → Finset Nat) (rel : List Epoch) (n m : Nat)
    (hm : m ∈ addPairs g rel n) : m ∈ g n ∨ ∃ b ∈ rel, b.id = m :=
  pairs_outer_sound rel rel g n m hm

theorem addPairs_complete (g : Nat → Finset Nat) (rel : List Epoch)
    (a b : Epoch) (ha : a ∈ rel) (hb : b ∈ rel) (hne : a.id ≠ b.id) :
    b.id ∈ addPairs g rel a.id :=
  pairs_outer_complete rel rel g a b ha hb hne

theorem buildGraph_go_mono : ∀ (subs : List DataSubSpan)
    (g : Nat → Finset Nat) (n m : Nat), m ∈ g n →
    m ∈ (subs.foldl (fun g sub => addPairs g (relevantEpochs sub)) g) n := by
  intro subs
  induction subs with
  | nil =>
      intro g n m hm
      exact hm
  | cons s0 subs ih =>
      intro g n m hm
      rw [List.foldl_cons]
      exact ih _ n m (addPairs_mono g _ n m hm)

theorem buildGraph_go_sound : ∀ (subs : List DataSubSpan)
    (g : Nat → Finset Nat) (n m : Nat),
    m ∈ (subs.foldl (fun g sub => addPairs g (relevantEpochs sub)) g) n →
    m ∈ g n ∨ ∃ sub ∈ subs, ∃ e ∈ relevantEpochs sub, e.id = m := by
  intro subs
  induction subs with
  | nil =>
      intro g n m hm
      exact Or.inl hm
  | cons s0 subs ih =>
      intro g n m hm
      rw [List.foldl_cons] at hm
      rcases ih _ n m hm with h1 | ⟨sub, hsub, hrest⟩
      · rcases addPairs_sound g _ n m h1 with h2 | ⟨b, hb, hid⟩
        · exact Or.inl h2
        · exact Or.inr ⟨s0, List.mem_cons_self s0 subs, b, hb, hid⟩
      · exact Or.inr ⟨sub, List.mem_cons_of_mem s0 hsub, hrest⟩

theorem buildGraph_go_complete : ∀ (subs : List DataSubSpan)
    (g : Nat → Finset Nat) (sub : DataSubSpan) (a b : Epoch), sub ∈ subs →
    a ∈ relevantEpochs sub → b ∈ relevantEpochs sub → a.id ≠ b.id →
    b.id ∈ (subs.foldl (fun g sub => addPairs g (relevantEpochs sub)) g)
      a.id := by
  intro subs
  induction subs with
  | nil =>
      intro g sub a b hsub
      exact absurd hsub (List.not_mem_nil sub)
  | cons s0 subs ih =>
      intro g sub a b hsub ha hb hne
      rw [List.foldl_cons]
      rcases List.mem_cons.mp hsub with rfl | hsub'
      · exact buildGraph_go_mono subs _ a.id b.id
          (addPairs_complete g _ a b ha hb hne)
      · exact ih _ sub a b hsub' ha hb hne

theorem buildGraph_sound (subs : List DataSubSpan) (n m : Nat)
    (hm : m ∈ buildGraph subs n) :
    ∃ sub ∈ subs, ∃ e ∈ relevantEpochs sub, e.id = m := by
  rcases buildGraph_go_sound subs (fun _ => ∅) n m hm with h0 | h1
  · exact absurd h0 (Finset.not_mem_empty m)
  · exact h1

theorem buildGraph_complete (subs : List DataSubSpan) (sub : DataSubSpan)
    (a b : Epoch) (hsub : sub ∈ subs) (ha : a ∈ relevantEpochs sub)
    (hb : b ∈ relevantEpochs sub) (hne : a.id ≠ b.id) :
    b.id ∈ buildGraph subs a.id :=
  buildGraph_go_complete subs (fun _ => ∅) sub a b hsub ha hb hne

/-! ## Store-similarity of sweep runs -/

theorem forall₂_map_map {α β : Type} (r : β → β → Prop) (f g : α → β) :
    ∀ l : List α, (∀ x ∈ l, r (f x) (g x)) →
    List.Forall₂ r (l.map f) (l.map g) := by
  intro l
  induction l with
  | nil =>
      intro _
      exact List.Forall₂.nil
  | cons a l ih =>
      intro h
      rw [List.map_cons, List.map_cons]
      exact List.Forall₂.cons (h a (List.mem_cons_self a l))
        (ih fun x hx => h x (List.mem_cons_of_mem a hx))

theorem forall₂_append_rel {α β : Type} (r : α → β → Prop)
    {l1 u1 : List α} {l2 u2 : List β} (h1 : List.Forall₂ r l1 l2)
    (h2 : List.Forall₂ r u1 u2) :
    List.Forall₂ r (l1 ++ u1) (l2 ++ u2) := by
  induction h1 with
  | nil => exact h2
  | cons hab _ ih => exact List.Forall₂.cons hab ih

theorem forall₂_mem_right {α β : Type} (r : α → β → Prop)
    {l1 : List α} {l2 : List β} (h : List.Forall₂ r l1 l2) :
    ∀ b ∈ l2, ∃ a ∈ l1, r a b := by
  induction h with
  | nil =>
      intro b hb
      exact absurd hb (List.not_mem_nil b)
  | cons hab htl ih =>
      intro b hb
      rcases List.mem_cons.mp hb with rfl | hb'
      · exact ⟨_, List.mem_cons_self _ _, hab⟩
      · obtain ⟨a, ha, hr⟩ := ih b hb'
        exact ⟨a, List.mem_cons_of_mem _ ha, hr⟩

theorem emitSub_subSim (ia1 ia2 : Store) (oc : Bool) (l p : Pos)
    (ce : List (Epoch × Int)) (ca : List (String × Int)) :
    List.Forall₂ (subSim ia1 ia2) (emitSub ia1 oc l p ce ca)
      (emitSub ia2 oc l p ce ca) := by
  cases oc with
  | true =>
      unfold emitSub
      rw [if_pos rfl, if_pos rfl]
      refine List.Forall₂.cons ?_ List.Forall₂.nil
      exact ⟨rfl, rfl, rfl, (ca.map Prod.fst).toFinset, rfl, rfl⟩
  | false =>
      unfold emitSub
      rw [if_neg Bool.false_ne_true, if_neg Bool.false_ne_true]
      refine forall₂_map_map _ _ _ _ ?_
      intro e _
      refine ⟨rfl, rfl, rfl, (ca.map Prod.fst).toFinset, ?_, ?_⟩
      · show (ca.map Prod.fst).toFinset ∪ (sget ia1 e.id).toFinset =
          (ca.map Prod.fst).toFinset ∪ intrinsicsOf ia1 [e]
        simp [intrinsicsOf]
      · show (ca.map Prod.fst).toFinset ∪ (sget ia2 e.id).toFinset =
          (ca.map Prod.fst).toFinset ∪ intrinsicsOf ia2 [e]
        simp [intrinsicsOf]

theorem emitAt_subSim (ia1 ia2 : Store) (oc : Bool) (lastPos : Option Pos)
    (p : Pos) (ce : List (Epoch × Int)) (ca : List (String × Int)) :
    List.Forall₂ (subSim ia1 ia2) (emitAt ia1 oc lastPos p ce ca)
      (emitAt ia2 oc lastPos p ce ca) := by
  cases lastPos with
  | none => exact List.Forall₂.nil
  | some l =>
      show List.Forall₂ (subSim ia1 ia2)
        (if p ≠ l ∧ ce ≠ [] then emitSub ia1 oc l p ce ca else [])
        (if p ≠ l ∧ ce ≠ [] then emitSub ia2 oc l p ce ca else [])
      by_cases hc : p ≠ l ∧ ce ≠ []
      · rw [if_pos hc, if_pos hc]
        exact emitSub_subSim ia1 ia2 oc l p ce ca
      · rw [if_neg hc, if_neg hc]
        exact List.Forall₂.nil

theorem sweepAux_cons_inv (ia : Store) (oc : Bool) (sc : StateChange)
    (rest : List StateChange) (lastPos : Option Pos)
    (ce : List (Epoch × Int)) (ca : List (String × Int))
    (out : List DataSubSpan)
    (h : sweepAux ia oc (sc :: rest) lastPos ce ca = .ok out) :
    ∃ ce' ca' out', stepDict sc.epoch ce sc.change = .ok ce' ∧
      stepDict sc.artifact ca sc.change = .ok ca' ∧
      sweepAux ia oc rest (some sc.position) ce' ca' = .ok out' ∧
      out = emitAt ia oc lastPos sc.position ce ca ++ out' := by
  simp only [sweepAux] at h
  split at h
  · exact absurd h (by simp)
  next ce' hce =>
    split at h
    · exact absurd h (by simp)
    next ca' hca =>
      split at h
      · exact absurd h (by simp)
      next out' hout =>
        cases h
        exact ⟨ce', ca', out', hce, hca, hout, rfl⟩

theorem sweepAux_subSim (oc : Bool) (ia1 ia2 : Store) :
    ∀ (scs : List StateChange) (lastPos : Option Pos)
      (ce : List (Epoch × Int)) (ca : List (String × Int))
      (out1 : List DataSubSpan),
      sweepAux ia1 oc scs lastPos ce ca = .ok out1 →
      ∃ out2, sweepAux ia2 oc scs lastPos ce ca = .ok out2 ∧
        List.Forall₂ (subSim ia1 ia2) out1 out2 := by
  intro scs
  induction scs with
  | nil =>
      intro lastPos ce ca out1 h
      rw [sweepAux_nil] at h
      by_cases hc : ce = [] ∧ ca = []
      · rw [if_pos hc] at h
        cases h
        exact ⟨[], by rw [sweepAux_nil, if_pos hc], List.Forall₂.nil⟩
      · rw [if_neg hc] at h
        exact absurd h (by simp)
  | cons sc rest ih =>
      intro lastPos ce ca out1 h
      obtain ⟨ce', ca', out', hce, hca, hrec, rfl⟩ :=
        sweepAux_cons_inv ia1 oc sc rest lastPos ce ca out1 h
      obtain ⟨out2', hrec2, hF⟩ := ih (some sc.position) ce' ca' out' hrec
      exact ⟨emitAt ia2 oc lastPos sc.position ce ca ++ out2',
        sweepAux_cons_ok ia2 oc sc rest lastPos ce ca hce hca hrec2,
        forall₂_append_rel _ (emitAt_subSim ia1 ia2 oc lastPos sc.position ce ca)
          hF⟩

theorem epoch_subspans_subSim (ia1 ia2 : Store) (spans : List DataSpan)
    (oc : Bool) (out1 : List DataSubSpan)
    (h : epoch_subspans ia1 spans oc = .ok out1) :
    ∃ out2, epoch_subspans ia2 spans oc = .ok out2 ∧
      List.Forall₂ (subSim ia1 ia2) out1 out2 :=
  sweepAux_subSim oc ia1 ia2 (List.insertionSort scLe (stateChanges spans))
    none [] [] out1 h

theorem idInjective_spec (spans : List DataSpan)
    (h : idInjective spans = true) :
    ∀ s ∈ spans, ∀ s' ∈ spans, ∀ ea eb, s.epoch = some ea →
      s'.epoch = some eb → ea.id = eb.id → ea = eb := by
  intro s hs s' hs' ea eb hsa hsb hid
  rw [idInjective, List.all_eq_true] at h
  have h1 := h s hs
  rw [List.all_eq_true] at h1
  have h2 := h1 s' hs'
  simp only [hsa, hsb] at h2
  rw [if_pos hid] at h2
  exact of_decide_eq_true h2

theorem mem_relevantEpochs (sub : DataSubSpan) (e : Epoch) :
    e ∈ relevantEpochs sub ↔ e ∈ sub.epochs ∧ e.all_or_nothing = true := by
  simp [relevantEpochs]

theorem relevantEpochs_congr (a b : DataSubSpan) (h : a.epochs = b.epochs) :
    relevantEpochs a = relevantEpochs b := by
  rw [relevantEpochs, relevantEpochs, h]

/-- Claim C5: all-or-nothing propagation is monotone and idempotent.  For
every well-formed span list whose tagged epochs have distinct ids,
`_propagate_all_or_nothing` terminates with fuel equal to the number of
distinct epochs (no pop iteration beyond that bound is ever needed, and
neither the flood-fill assertion nor the sweep's checks fire); each epoch's
`intrinsic_artifacts` list is either left untouched or grows from empty to
`["_ALL_OR_NOTHING"]` (generally, any successful flood-fill run never
shrinks a non-empty list to empty); and running the whole propagation a
second time on the resulting heap changes nothing. -/
theorem C5_propagation (ia : Store) (spans : List DataSpan) (oc : Bool)
    (hwf : ∀ s ∈ spans, s.start < s.stop)
    (hinj : idInjective spans = true) :
    ∃ ia2, propagate_all_or_nothing ia spans oc = .ok ia2 ∧
      (∀ n, sget ia2 n = sget ia n ∨
        (sget ia n = [] ∧ sget ia2 n = ["_ALL_OR_NOTHING"])) ∧
      (∀ (g : Nat → Finset Nat) (fuel : Nat) (pend : List Nat)
        (ja ja2 : Store), floodLoop g fuel pend ja = .ok ja2 →
        ∀ n, sget ja n ≠ [] → sget ja2 n ≠ []) ∧
      propagate_all_or_nothing ia2 spans oc = .ok ia2 := by
  obtain ⟨subs1, hok1, -, -, -, hprops⟩ := epoch_subspans_spec ia spans oc hwf
  have hfromspans : ∀ sub ∈ subs1, ∀ e ∈ sub.epochs,
      ∃ s ∈ spans, s.epoch = some e :=
    fun sub hsub => (hprops sub hsub).2.2
  have hgsub : ∀ a, buildGraph subs1 a ⊆ epochIds spans := by
    intro a m hm
    obtain ⟨sub, hsub, e, he, hid⟩ := buildGraph_sound subs1 a m hm
    obtain ⟨s, hs, hse⟩ :=
      hfromspans sub hsub e ((mem_relevantEpochs sub e).mp he).1
    exact hid ▸ epochIds_mem spans s e hs hse
  obtain ⟨ia2, hflood⟩ := floodLoop_ok (buildGraph subs1) (epochIds spans)
    hgsub (epochIds spans).card (buildPending ia subs1) ia
    (buildPending_nodup ia subs1)
    (fun n hn => by
      obtain ⟨sub, hsub, ha, e, he, hid, h0⟩ := buildPending_sound ia subs1 n hn
      exact hid ▸ h0)
    (fun n hn => by
      obtain ⟨sub, hsub, ha, e, he, hid, h0⟩ := buildPending_sound ia subs1 n hn
      obtain ⟨s, hs, hse⟩ :=
        hfromspans sub hsub e ((mem_relevantEpochs sub e).mp he).1
      exact hid ▸ epochIds_mem spans s e hs hse)
    (Finset.card_filter_le _ _)
  have hrun1 : propagate_all_or_nothing ia spans oc = .ok ia2 := by
    unfold propagate_all_or_nothing
    rw [hok1]
    exact hflood
  have hmono :=
    floodLoop_mono (buildGraph subs1) (epochIds spans).card _ ia ia2 hflood
  refine ⟨ia2, hrun1, hmono,
    fun g fuel pend ja ja2 h n hn => floodLoop_grows g fuel pend ja ja2 h n hn,
    ?_⟩
  obtain ⟨subs2, hok2, hF⟩ := epoch_subspans_subSim ia ia2 spans oc subs1 hok1
  have hbp2 : buildPending ia2 subs2 = [] := by
    refine buildPending_eq_nil ia2 subs2 ?_
    intro sub2 hsub2 h2a e he
    intro hcontra
    have hia_e : sget ia e.id = [] := by
      rcases hmono e.id with h1 | ⟨h1, -⟩
      · rw [← h1]
        exact hcontra
      · exact h1
    obtain ⟨sub1, hsub1, hsim⟩ := forall₂_mem_right _ hF sub2 hsub2
    obtain ⟨-, -, heps, base, hart1, hart2⟩ := hsim
    have herel : relevantEpochs sub1 = relevantEpochs sub2 :=
      relevantEpochs_congr _ _ heps
    have he1 : e ∈ relevantEpochs sub1 := by
      rw [herel]
      exact he
    by_cases h1a : sub1.artifacts = ∅
    · have hbase : base = ∅ ∧ intrinsicsOf ia sub1.epochs = ∅ := by
        rw [hart1] at h1a
        exact Finset.union_eq_empty.mp h1a
      have h2art : sub2.artifacts = intrinsicsOf ia2 sub2.epochs := by
        rw [hart2, hbase.1, Finset.empty_union]
      have hne2 : (intrinsicsOf ia2 sub2.epochs).Nonempty := by
        rw [← h2art]
        exact Finset.nonempty_iff_ne_empty.mpr h2a
      obtain ⟨x, hx⟩ := hne2
      obtain ⟨e2, he2, hxe2⟩ := (mem_intrinsicsOf ia2 sub2.epochs x).mp hx
      have he2taint : sget ia2 e2.id ≠ [] := List.ne_nil_of_mem hxe2
      have he2_1 : e2 ∈ sub1.epochs := by
        rw [heps]
        exact he2
      have he2empty : sget ia e2.id = [] :=
        (intrinsicsOf_eq_empty ia sub1.epochs).mp hbase.2 e2 he2_1
      have hProv : ∃ sub ∈ subs1, ∃ e' ∈ relevantEpochs sub, e'.id = e2.id := by
        refine floodLoop_provenance (buildGraph subs1)
          (fun n => ∃ sub ∈ subs1, ∃ e' ∈ relevantEpochs sub, e'.id = n)
          (fun a m hm => buildGraph_sound subs1 a m hm)
          (epochIds spans).card _ ia ia2 hflood ?_ e2.id he2empty he2taint
        intro n hn
        obtain ⟨sub, hsub, ha, e', he', hid, h0⟩ :=
          buildPending_sound ia subs1 n hn
        exact ⟨sub, hsub, e', he', hid⟩
      obtain ⟨sub', hsub', e2', he2', hid2⟩ := hProv
      obtain ⟨sa, hsa, hsea⟩ :=
        hfromspans sub' hsub' e2' ((mem_relevantEpochs sub' e2').mp he2').1
      obtain ⟨sb, hsb, hseb⟩ := hfromspans sub1 hsub1 e2 he2_1
      have he2'eq : e2' = e2 :=
        idInjective_spec spans hinj sa hsa sb hsb e2' e2 hsea hseb hid2
      have he2aon : e2.all_or_nothing = true := by
        rw [← he2'eq]
        exact ((mem_relevantEpochs sub' e2').mp he2').2
      have he2rel : e2 ∈ relevantEpochs sub1 :=
        (mem_relevantEpochs sub1 e2).mpr ⟨he2_1, he2aon⟩
      have hidne : e2.id ≠ e.id := by
        intro hh
        rw [hh] at he2taint
        exact he2taint hcontra
      exact floodLoop_closure (buildGraph subs1) (epochIds spans).card _ ia ia2
        hflood e2.id he2empty he2taint e.id
        (buildGraph_complete subs1 sub1 e2 e hsub1 he2rel he1 hidne) hcontra
    · exact floodLoop_tainted (buildGraph subs1) (epochIds spans).card _ ia ia2
        hflood e.id (buildPending_mem ia subs1 sub1 e hsub1 h1a he1 hia_e)
        hcontra
  have hfin : floodLoop (buildGraph subs2) (epochIds spans).card
      (buildPending ia2 subs2) ia2 = .ok ia2 := by
    rw [hbp2]
    exact floodLoop_nil _ _ _
  unfold propagate_all_or_nothing
  rw [hok2]
  exact hfin

/-- Claim C5 witness: the chained all-or-nothing scenario (four overlapping
all-or-nothing epochs, one artifact) propagates, only grows intrinsic
artifact lists, and is a fixpoint of a second run. -/
theorem C5_propagation_witness :
    (∀ s ∈ spansChain, s.start < s.stop) ∧ idInjective spansChain = true ∧
      ∃ ia2, propagate_all_or_nothing ia0 spansChain true = .ok ia2 ∧
        (∀ n, sget ia2 n = sget ia0 n ∨
          (sget ia0 n = [] ∧ sget ia2 n = ["_ALL_OR_NOTHING"])) ∧
        (∀ (g : Nat → Finset Nat) (fuel : Nat) (pend : List Nat)
          (ja ja2 : Store), floodLoop g fuel pend ja = .ok ja2 →
          ∀ n, sget ja n ≠ [] → sget ja2 n ≠ []) ∧
        propagate_all_or_nothing ia2 spansChain true = .ok ia2 :=
  ⟨by decide, by decide,
    C5_propagation ia0 spansChain true (by decide) (by decide)⟩

/-- Claim C4: the counting path of `_Accountant.count` never runs.  On every
subspan with a non-empty epoch set the per-epoch loop reads the name
`bucket_epochs`, which is bound nowhere in the function or module
(rerp.py:871; the artifact branch likewise reads the unbound `buckets`,
rerp.py:892), so instead of adding the tick counts to any bucket the call
raises `NameError` before the first counter update; only the empty-epoch
early return (rerp.py:857-858) completes. -/
theorem C4_accountant_name_error :
    Accountant_count (Accountant.init 1) ⟨pos 0 0, pos 0 5, [eA], ∅⟩ =
      .error "NameError: name bucket_epochs is not defined" ∧
    Accountant_count (Accountant.init 1) ⟨pos 0 0, pos 0 5, [], {"blink"}⟩ =
      .ok (Accountant.init 1) :=
  ⟨rfl, rfl⟩

/-- Claim C6, counterexample.  The code detects overlap as
`event_ticks_accepted > ticks_accepted` (rerp.py:934), not as exceeding the
overlap-free counter `no_overlap_ticks_accepted` that the claim names: on a
global bucket with `event_ticks_accepted = ticks_accepted = 10` but
`no_overlap_ticks_accepted = 0`, `auto` resolves to `"by-epoch"` although
accepted event-ticks strictly exceed overlap-free accepted ticks. -/
theorem C6_counterexample :
    choose_strategy "auto" [⟨gaiX⟩] = .ok "by-epoch" ∧
    gaiX.no_overlap_ticks_accepted < gaiX.event_ticks_accepted :=
  ⟨by decide, by decide⟩

/-- Claim C6 (amended): `_choose_strategy("auto", rerps)` resolves to
`"by-epoch"` iff the global bucket's accepted event-ticks do not exceed its
accepted ticks (the code's overlap test, rerp.py:934) and it records no
partially-accepted epochs, and to `"continuous"` otherwise; `"continuous"`
is always returned unchanged when requested. -/
theorem C6_choose_strategy (r : rERPAcct) (rest : List rERPAcct) :
    (choose_strategy "auto" (r :: rest) =
      .ok (if r.global_artifact_info.event_ticks_accepted ≤
              r.global_artifact_info.ticks_accepted ∧
            r.global_artifact_info.epochs_partially_accepted ≤ 0
          then "by-epoch" else "continuous")) ∧
    (choose_strategy "auto" (r :: rest) = .ok "by-epoch" ↔
      r.global_artifact_info.event_ticks_accepted ≤
          r.global_artifact_info.ticks_accepted ∧
        r.global_artifact_info.epochs_partially_accepted ≤ 0) ∧
    choose_strategy "continuous" (r :: rest) = .ok "continuous" := by
  have key : choose_strategy "auto" (r :: rest) =
      .ok (if r.global_artifact_info.event_ticks_accepted ≤
              r.global_artifact_info.ticks_accepted ∧
            r.global_artifact_info.epochs_partially_accepted ≤ 0
          then "by-epoch" else "continuous") := by
    by_cases h1 : r.global_artifact_info.ticks_accepted <
        r.global_artifact_info.event_ticks_accepted
    · rw [if_neg (fun hh => absurd h1 (not_lt.mpr hh.1))]
      simp [choose_strategy, h1]
    · by_cases h2 : (0:Int) < r.global_artifact_info.epochs_partially_accepted
      · rw [if_neg (fun hh => absurd h2 (not_lt.mpr hh.2))]
        simp [choose_strategy, h1, h2]
      · rw [if_pos ⟨not_lt.mp h1, not_lt.mp h2⟩]
        simp [choose_strategy, h1, h2]
  refine ⟨key, ?_, by simp [choose_strategy]⟩
  rw [key]
  by_cases hc : r.global_artifact_info.event_ticks_accepted ≤
      r.global_artifact_info.ticks_accepted ∧
    r.global_artifact_info.epochs_partially_accepted ≤ 0
  · rw [if_pos hc]
    exact iff_of_true rfl hc
  · rw [if_neg hc]
    refine iff_of_false ?_ hc
    intro hh
    exact absurd hh (by decide)

/-- Claim C7 (modelled from the spec for the tick conversion:
`DataFormat.ms_to_ticks` lives in `pyrerp/data.py`, outside the staged
sources; section 4.1 of the spec fixes its rounding).  The discretization
rounds the start up and the stop down to ticks, adds one to the stop tick to
make the window half-open, and errors iff the window is empty — equivalently,
iff no sample instant `k * 1000 / hz` (tick `k` in milliseconds) lies within
`[start_time, stop_time]`; the request `[1, 3]` ms at 250 Hz has
`stop_time ≥ start_time` and still fails. -/
theorem C7_discretized_window (hz start_time stop_time : ℚ) (hhz : 0 < hz) :
    ((∃ msg, epoch_info_and_spans_window hz start_time stop_time =
        .error msg) ↔
      ¬∃ k : ℤ, start_time ≤ (k : ℚ) * 1000 / hz ∧
        (k : ℚ) * 1000 / hz ≤ stop_time) ∧
    epoch_info_and_spans_window 250 1 3 =
      .error "ValueError: requested epoch span contains no data points" ∧
    (1 : ℚ) ≤ 3 := by
  have h1000 : (0:ℚ) < 1000 := by norm_num
  have hwin : epoch_info_and_spans_window hz start_time stop_time =
      if ⌊stop_time * hz / 1000⌋ + 1 ≤ ⌈start_time * hz / 1000⌉ then
        .error "ValueError: requested epoch span contains no data points"
      else .ok (⌈start_time * hz / 1000⌉, ⌊stop_time * hz / 1000⌋ + 1) := rfl
  have hex : (∃ k : ℤ, start_time ≤ (k : ℚ) * 1000 / hz ∧
      (k : ℚ) * 1000 / hz ≤ stop_time) ↔
      ⌈start_time * hz / 1000⌉ ≤ ⌊stop_time * hz / 1000⌋ := by
    constructor
    · rintro ⟨k, hk1, hk2⟩
      have h1' : start_time * hz / 1000 ≤ (k : ℚ) := by
        rw [div_le_iff h1000]
        rw [le_div_iff hhz] at hk1
        linarith
      have h2' : (k : ℚ) ≤ stop_time * hz / 1000 := by
        rw [le_div_iff h1000]
        rw [div_le_iff hhz] at hk2
        linarith
      exact le_trans (Int.ceil_le.mpr h1') (Int.le_floor.mpr h2')
    · intro hle
      refine ⟨⌈start_time * hz / 1000⌉, ?_, ?_⟩
      · rw [le_div_iff hhz]
        have hceil := Int.le_ceil (start_time * hz / 1000)
        rw [div_le_iff h1000] at hceil
        linarith
      · rw [div_le_iff hhz]
        have h2 : ((⌈start_time * hz / 1000⌉ : ℤ) : ℚ) ≤
            ((⌊stop_time * hz / 1000⌋ : ℤ) : ℚ) := Int.cast_le.mpr hle
        have h3 := Int.floor_le (stop_time * hz / 1000)
        have h4 : ((⌈start_time * hz / 1000⌉ : ℤ) : ℚ) ≤
            stop_time * hz / 1000 := le_trans h2 h3
        rw [le_div_iff h1000] at h4
        linarith
  refine ⟨?_, by norm_num [epoch_info_and_spans_window, ms_to_ticks],
    by norm_num⟩
  rw [hwin]
  by_cases hcond : ⌊stop_time * hz / 1000⌋ + 1 ≤ ⌈start_time * hz / 1000⌉
  · rw [if_pos hcond]
    refine iff_of_true ⟨_, rfl⟩ ?_
    intro hexk
    have := hex.mp hexk
    omega
  · rw [if_neg hcond]
    refine iff_of_false ?_ ?_
    · rintro ⟨msg, hmsg⟩
      exact absurd hmsg (by simp)
    · intro hn
      exact hn (hex.mpr (by omega))

/-- Claim C7 witness: the theorem at 250 Hz with the `[1, 3]` ms request. -/
theorem C7_discretized_window_witness :
    (0:ℚ) < 250 ∧
      (((∃ msg, epoch_info_and_spans_window 250 1 3 = .error msg) ↔
        ¬∃ k : ℤ, (1:ℚ) ≤ (k : ℚ) * 1000 / 250 ∧
          (k : ℚ) * 1000 / 250 ≤ 3) ∧
       epoch_info_and_spans_window 250 1 3 =
        .error "ValueError: requested epoch span contains no data points" ∧
       (1 : ℚ) ≤ 3) :=
  ⟨by decide, C7_discretized_window 250 1 3 (by decide)⟩

/-- Claim C9: `rERPRequest.__init__` raises `ValueError` exactly when
`stop_time < start_time`; equal start and stop times are accepted at
construction, and the empty-window failure of such a request only comes
later from the discretization (the `[1, 3]` ms request at 250 Hz constructs
fine and then fails the range check). -/
theorem C9_request_validation (event_query : String)
    (start_time stop_time : ℚ) (formula : String) (name : Option String)
    (aon : Bool) :
    ((∃ msg, rERPRequest_init event_query start_time stop_time formula name
        aon = .error msg) ↔ stop_time < start_time) ∧
    rERPRequest_init "q" 1 1 "~ 1" none false =
      .ok ⟨"q", 1, 1, "~ 1", "q: ~ 1", false⟩ ∧
    rERPRequest_init "q" 1 3 "~ 1" none false =
      .ok ⟨"q", 1, 3, "~ 1", "q: ~ 1", false⟩ ∧
    epoch_info_and_spans_window 250 1 3 =
      .error "ValueError: requested epoch span contains no data points" := by
  refine ⟨?_, by norm_num [rERPRequest_init]; rfl,
    by norm_num [rERPRequest_init]; rfl,
    by norm_num [epoch_info_and_spans_window, ms_to_ticks]⟩
  simp only [rERPRequest_init]
  by_cases h : stop_time < start_time
  · rw [if_pos h]
    exact iff_of_true ⟨_, rfl⟩ h
  · rw [if_neg h]
    refine iff_of_false ?_ h
    rintro ⟨msg, hmsg⟩
    exact absurd hmsg (by simp)

theorem eventArtifactSpans_cons_ok (ev : Event) (evs : List Event)
    (fld : String) {t : String} {l : List DataSpan}
    (h1 : artifactTypeOf ev fld = .ok t)
    (h2 : eventArtifactSpans evs fld = .ok l) :
    eventArtifactSpans (ev :: evs) fld =
      .ok (⟨pos ev.recspan_id ev.start_tick, pos ev.recspan_id ev.stop_tick,
        none, some t⟩ :: l) := by
  simp only [eventArtifactSpans, h1, h2]

theorem eventArtifactSpans_ok (fld : String) : ∀ (evs : List Event),
    (∀ e ∈ evs, ∀ v, fget e.fields fld = some v → ∃ s, v = PyValue.pstr s) →
    ∃ l, eventArtifactSpans evs fld = .ok l ∧
      ∀ ev ∈ evs, fget ev.fields fld = none →
        (⟨pos ev.recspan_id ev.start_tick, pos ev.recspan_id ev.stop_tick,
          none, some "_UNKNOWN"⟩ : DataSpan) ∈ l := by
  intro evs
  induction evs with
  | nil =>
      intro _
      exact ⟨[], rfl, fun ev hev => absurd hev (List.not_mem_nil ev)⟩
  | cons ev evs ih =>
      intro h
      obtain ⟨l, hl, hmem⟩ := ih fun e he v hv =>
        h e (List.mem_cons_of_mem ev he) v hv
      have ht : ∃ t, artifactTypeOf ev fld = .ok t ∧
          (fget ev.fields fld = none → t = "_UNKNOWN") := by
        cases hf : fget ev.fields fld with
        | none =>
            refine ⟨"_UNKNOWN", ?_, fun _ => rfl⟩
            unfold artifactTypeOf
            rw [hf]
        | some v =>
            obtain ⟨s, rfl⟩ := h ev (List.mem_cons_self ev evs) v hf
            refine ⟨s, ?_, fun hh => absurd hh (by simp)⟩
            unfold artifactTypeOf
            rw [hf]
      obtain ⟨t, hta, htb⟩ := ht
      refine ⟨⟨pos ev.recspan_id ev.start_tick, pos ev.recspan_id ev.stop_tick,
        none, some t⟩ :: l, eventArtifactSpans_cons_ok ev evs fld hta hl, ?_⟩
      intro ev' hev' hnone
      rcases List.mem_cons.mp hev' with rfl | hev''
      · rw [htb hnone]
        exact List.mem_cons_self _ _
      · exact List.mem_cons_of_mem _ (hmem ev' hev'' hnone)

/-- Claim C10: in `_artifact_spans`, when every present artifact-type value
is a string the function succeeds, and an event with no value for the
artifact-type field contributes an artifact span labeled `"_UNKNOWN"`
(the `.get` default, rerp.py:249-250) instead of raising; independently,
`artifactTypeOf` (the per-event type lookup and `isinstance` check,
rerp.py:249-252) raises the `TypeError` iff the field is present with a
non-string value. -/
theorem C10_artifact_spans_unknown (recspans : List RecspanInfo)
    (evs : List Event) (fld : String)
    (hstr : ∀ e ∈ evs, ∀ v, fget e.fields fld = some v →
      ∃ s, v = PyValue.pstr s) :
    (∃ out, artifact_spans recspans evs fld = .ok out ∧
      ∀ ev ∈ evs, fget ev.fields fld = none →
        (⟨pos ev.recspan_id ev.start_tick, pos ev.recspan_id ev.stop_tick,
          none, some "_UNKNOWN"⟩ : DataSpan) ∈ out) ∧
    ∀ ev : Event, (∃ msg, artifactTypeOf ev fld = .error msg) ↔
      ∃ v, fget ev.fields fld = some v ∧ ∀ s, v ≠ PyValue.pstr s := by
  constructor
  · obtain ⟨l, hl, hmem⟩ := eventArtifactSpans_ok fld evs hstr
    refine ⟨(recspans.flatMap fun ri =>
        [⟨pos ri.id (-(2 ^ 31)), pos ri.id 0, none, some "_NO_RECORDING"⟩,
         ⟨pos ri.id ri.ticks, pos ri.id (2 ^ 31), none,
          some "_NO_RECORDING"⟩]) ++ l, ?_, ?_⟩
    · unfold artifact_spans
      rw [hl]
    · intro ev hev hnone
      exact List.mem_append_right _ (hmem ev hev hnone)
  · intro ev
    cases hf : fget ev.fields fld with
    | none =>
        refine iff_of_false ?_ ?_
        · rintro ⟨msg, hmsg⟩
          unfold artifactTypeOf at hmsg
          rw [hf] at hmsg
          exact absurd hmsg (by simp)
        · rintro ⟨v, hv, -⟩
          exact absurd hv (by simp)
    | some v =>
        cases v with
        | pstr s =>
            refine iff_of_false ?_ ?_
            · rintro ⟨msg, hmsg⟩
              unfold artifactTypeOf at hmsg
              rw [hf] at hmsg
              exact absurd hmsg (by simp)
            · rintro ⟨v', hv', hne⟩
              cases hv'
              exact hne s rfl
        | pint n =>
            refine iff_of_true
              ⟨"TypeError: artifact type must be a string", ?_⟩
              ⟨PyValue.pint n, rfl, fun s hh => PyValue.noConfusion hh⟩
            unfold artifactTypeOf
            rw [hf]
        | pbool b =>
            refine iff_of_true
              ⟨"TypeError: artifact type must be a string", ?_⟩
              ⟨PyValue.pbool b, rfl, fun s hh => PyValue.noConfusion hh⟩
            unfold artifactTypeOf
            rw [hf]
        | pnone =>
            refine iff_of_true
              ⟨"TypeError: artifact type must be a string", ?_⟩
              ⟨PyValue.pnone, rfl, fun s hh => PyValue.noConfusion hh⟩
            unfold artifactTypeOf
            rw [hf]

/-- Claim C10 witness: one recording and one field-less artifact event — the
function succeeds and emits the `"_UNKNOWN"`-labeled span for that event. -/
theorem C10_artifact_spans_unknown_witness :
    (∀ e ∈ [ev0], ∀ v, fget e.fields "type" = some v →
      ∃ s, v = PyValue.pstr s) ∧
      ((∃ out, artifact_spans [ri0] [ev0] "type" = .ok out ∧
        ∀ ev ∈ [ev0], fget ev.fields "type" = none →
          (⟨pos ev.recspan_id ev.start_tick, pos ev.recspan_id ev.stop_tick,
            none, some "_UNKNOWN"⟩ : DataSpan) ∈ out) ∧
       ∀ ev : Event, (∃ msg, artifactTypeOf ev "type" = .error msg) ↔
        ∃ v, fget ev.fields "type" = some v ∧ ∀ s, v ≠ PyValue.pstr s) := by
  have hstr : ∀ e ∈ [ev0], ∀ v, fget e.fields "type" = some v →
      ∃ s, v = PyValue.pstr s := by
    intro e he v hv
    rw [List.mem_singleton.mp he] at hv
    simp [ev0, fget] at hv
  exact ⟨hstr, C10_artifact_spans_unknown [ri0] [ev0] "type" hstr⟩

end Pyrerp
